import Mathlib

/-!
Verification development for the polyphony compiler middle-end
(SSA construction, STG building, pipeline control synthesis).

The Lean definitions below are shallow embeddings of the Python sources
under `polyphony/compiler/` (`ssa.py`, `scope.py`, `stg.py`,
`stg_pipeline.py`).  Python objects become Lean structures, mutation
becomes explicit state passing, and fatal assertions become `Option`.
-/

set_option maxRecDepth 4000

namespace Poly

/-- A hardware signal as produced by `Scope.gen_sig` / `HDLModule.gen_sig`:
a name, a bit width and a tag set (embedded as a sorted-insertion-free list;
the Python side uses a `set`, only membership matters). -/
structure Sig where
  name : String
  width : Int
  tags : List String
  deriving DecidableEq, Repr

/-- `Ctx.LOAD` / `Ctx.STORE` of `ahdl.py`. -/
inductive Ctx where
  | load
  | store
  deriving DecidableEq, Repr

/-- Transition target after the IR level: a source `Block` reference
(by block number) or a resolved `State` reference (by state index).
The Python `AHDL_TRANSITION(None)` pending target is `Option.none`. -/
inductive Tgt where
  | tblock (b : Nat)
  | tstate (s : Nat)
  deriving DecidableEq, Repr

/-- The fragment of the AHDL operation language (`ahdl.py`) that the
STG builder and the pipeline synthesizer construct.  `AHDL_OP` is applied
at one or two arguments at every construction site in the sources, so it
is embedded as `unop`/`binop`.  `AHDL_META_WAIT` carries its resolved
transition slot only as a target. -/
inductive AHDL where
  | avar (sig : Sig) (ctx : Ctx)
  | aconst (v : Int)
  | asym (s : String)
  | unop (op : String) (a : AHDL)
  | binop (op : String) (a b : AHDL)
  | ifExp (c t e : AHDL)
  | amove (dst src : AHDL)
  | subscript (mem off : AHDL)
  | transition (target : Option Tgt)
  | transitionIf (conds : List AHDL) (codesList : List (List AHDL))
  | metaWait (kind : String) (trans : Option Tgt)
  | seq (factor : AHDL) (step total : Nat)
  | ioRead (port : AHDL)
  | ioWrite (port : AHDL) (src : AHDL)
  | pipelineGuard (cond : AHDL) (codes : List AHDL)
  | aif (conds : List AHDL) (codesList : List (List AHDL))
  | proccall (fname : String) (args : List AHDL)
  | inline (code : String)
  | calleeProlog (n : String)
  | calleeEpilog (n : String)
  | anop (info : String)
  deriving Repr

namespace Pipeline

/-- `PipelineState._pipeline_signal` (stg_pipeline.py, lines 42-53):
the control signal for stage `idx` is memoized by name
`<pstate name>_<idx>_<signal name>`; register signals are tagged
`{reg, pipeline_ctrl}`, wire signals `{net, pipeline_ctrl}`. -/
def pipelineSignal (pname : String) (signalName : String) (idx : Nat) (isReg : Bool) : Sig :=
  { name := pname ++ "_" ++ toString idx ++ "_" ++ signalName
    width := 1
    tags := if isReg then ["reg", "pipeline_ctrl"] else ["net", "pipeline_ctrl"] }

/-- `PipelineState.valid_signal` — a register. -/
def validSignal (pname : String) (idx : Nat) : Sig :=
  pipelineSignal pname "valid" idx true

/-- `PipelineState.ready_signal` — a wire. -/
def readySignal (pname : String) (idx : Nat) : Sig :=
  pipelineSignal pname "ready" idx false

/-- `PipelineState.enable_signal` — a wire. -/
def enableSignal (pname : String) (idx : Nat) : Sig :=
  pipelineSignal pname "enable" idx false

/-- `PipelineState.hold_signal` — a register. -/
def holdSignal (pname : String) (idx : Nat) : Sig :=
  pipelineSignal pname "hold" idx true

/-- `PipelineState.last_signal` — a register. -/
def lastSignal (pname : String) (idx : Nat) : Sig :=
  pipelineSignal pname "last" idx true

/-- `PipelineState.valid_exp` (stg_pipeline.py lines 58-70, identically
stg.py lines 122-133): for `idx > 0` the expression
`hold ? ready : ready & prev_valid`, for `idx = 0` just `ready`. -/
def validExp (pname : String) (idx : Nat) : AHDL :=
  if idx > 0 then
    AHDL.ifExp (AHDL.avar (holdSignal pname idx) Ctx.load)
      (AHDL.avar (readySignal pname idx) Ctx.load)
      (AHDL.binop "BitAnd"
        (AHDL.avar (readySignal pname idx) Ctx.load)
        (AHDL.avar (validSignal pname (idx - 1)) Ctx.load))
  else
    AHDL.avar (readySignal pname idx) Ctx.load

/-- The attributes of a `PipelineStage` that `_add_control_chain` branches
on, as computed by `PipelineStageBuilder._make_stage`. -/
structure StageFlags where
  step : Nat
  hasEnable : Bool
  isSource : Bool
  hasHold : Bool
  deriving DecidableEq, Repr

/-- Does one stage code trigger the enable flag in `_make_stage`?
(`c.is_a(AHDL_SEQ) and c.step == 0 and c.factor.is_a([AHDL_IO_READ, AHDL_IO_WRITE])`). -/
def codeTriggersEnable : AHDL → Bool
  | AHDL.seq (AHDL.ioRead _) 0 _ => true
  | AHDL.seq (AHDL.ioWrite _ _) 0 _ => true
  | _ => false

/-- Does one stage code trigger the source flag in `_make_stage`?
(an `AHDL_SEQ` at step 0 whose factor is an `AHDL_IO_WRITE`). -/
def codeTriggersSource : AHDL → Bool
  | AHDL.seq (AHDL.ioWrite _ _) 0 _ => true
  | _ => false

/-- Flag computation of `PipelineStageBuilder._make_stage`
(stg_pipeline.py lines 210-226): stage 0 of a finite loop always gates;
any stage with a step-0 I/O `AHDL_SEQ` gates; an I/O write makes the stage a
source; `has_hold` is set inside the per-code loop, so only stages with a
nonempty code list and `step > 0` hold. -/
def makeStageFlags (step : Nat) (codes : List AHDL) (isFiniteLoop : Bool) : StageFlags :=
  { step := step
    hasEnable := (step == 0 && isFiniteLoop) || codes.any codeTriggersEnable
    isSource := codes.any codeTriggersSource
    hasHold := step > 0 && !codes.isEmpty }

/-- The right-hand side assigned to `ready[step]` by
`PipelineStageBuilder._add_control_chain` (stg_pipeline.py lines 247-267).
`nstages` is `len(pstate.stages)`. -/
def readyRhs (pname : String) (nstages : Nat) (st : StageFlags) : AHDL :=
  let isLast := st.step == nstages - 1
  let rNext := if !isLast then AHDL.avar (readySignal pname (st.step + 1)) Ctx.load
               else AHDL.aconst 1
  if st.hasEnable then
    let en := AHDL.avar (enableSignal pname st.step) Ctx.load
    if st.isSource then
      if nstages > st.step + 1 then
        AHDL.binop "BitAnd"
          (AHDL.unop "Invert" (AHDL.avar (holdSignal pname (st.step + 1)) Ctx.load))
          en
      else
        en
    else
      AHDL.binop "BitAnd" rNext en
  else
    rNext

/-- The right-hand side assigned to `hold[step]` when the stage holds:
`hold ? (!ready) : (!ready & prev_valid)` (stg_pipeline.py lines 271-280).
`vPrev` is `valid[step-1]` for `step > 0`, or `enable[0]` for a gating
stage 0 (the `v_prev` choice of lines 238-246). -/
def holdRhs (pname : String) (st : StageFlags) (vPrev : AHDL) : AHDL :=
  let rNow := AHDL.avar (readySignal pname st.step) Ctx.load
  AHDL.ifExp (AHDL.avar (holdSignal pname st.step) Ctx.load)
    (AHDL.unop "Invert" rNow)
    (AHDL.binop "BitAnd" (AHDL.unop "Invert" rNow) vPrev)

/-- The `v_prev` selected at the head of `_add_control_chain`
(stg_pipeline.py lines 238-246): `enable[0]` for a gating stage 0
(else no previous valid), `valid[step-1]` for later stages. -/
def vPrevOf (pname : String) (st : StageFlags) : Option AHDL :=
  if st.step == 0 then
    if st.hasEnable then some (AHDL.avar (enableSignal pname 0) Ctx.load) else none
  else
    some (AHDL.avar (validSignal pname (st.step - 1)) Ctx.load)

/-- The list of control statements `PipelineStageBuilder._add_control_chain`
(stg_pipeline.py lines 237-286) appends to a stage's code list, in order:
the ready assignment, then (for holding stages) the hold latch, then (for
every non-final stage) the valid update. -/
def addControlChain (pname : String) (nstages : Nat) (st : StageFlags) : List AHDL :=
  let isLast := st.step == nstages - 1
  let readyStm := AHDL.amove (AHDL.avar (readySignal pname st.step) Ctx.store)
      (readyRhs pname nstages st)
  let holdStms :=
    if st.hasHold then
      match vPrevOf pname st with
      | some vPrev =>
          [AHDL.amove (AHDL.avar (holdSignal pname st.step) Ctx.store)
            (holdRhs pname st vPrev)]
      | none => []
    else []
  let validStms :=
    if !isLast then
      [AHDL.amove (AHDL.avar (validSignal pname st.step) Ctx.store)
        (validExp pname st.step)]
    else []
  readyStm :: (holdStms ++ validStms)

/-- The right-hand side assigned to `ready[step]` by
`WorkerPipelineStageBuilder._add_control_chain` in stg.py (lines 766-780):
no source special case, only the enable conjunction. -/
def readyRhsWorker (pname : String) (nstages : Nat) (st : StageFlags) : AHDL :=
  let isLast := st.step == nstages - 1
  let rNext := if !isLast then AHDL.avar (readySignal pname (st.step + 1)) Ctx.load
               else AHDL.aconst 1
  if st.hasEnable then
    AHDL.binop "BitAnd" rNext (AHDL.avar (enableSignal pname st.step) Ctx.load)
  else
    rNext

end Pipeline

end Poly

namespace Poly

namespace Pipeline

/-- The valid-update expression exactly as the specification phrases it:
`hold[i] ? ready[i] : (ready[i] AND valid[i-1])` for `i > 0`, `ready[0]`
for stage 0. -/
def specValidExp (pname : String) (i : Nat) : AHDL :=
  if i > 0 then
    AHDL.ifExp (AHDL.avar (holdSignal pname i) Ctx.load)
      (AHDL.avar (readySignal pname i) Ctx.load)
      (AHDL.binop "BitAnd"
        (AHDL.avar (readySignal pname i) Ctx.load)
        (AHDL.avar (validSignal pname (i - 1)) Ctx.load))
  else
    AHDL.avar (readySignal pname 0) Ctx.load

/-- Helper: the implementation's valid expression agrees with the
specification's phrasing at every index. -/
theorem validExp_eq_spec (pname : String) (i : Nat) :
    validExp pname i = specValidExp pname i := by
  unfold validExp specValidExp
  rcases Nat.eq_zero_or_pos i with h | h
  · subst h
    simp
  · simp [h]

/-- C1: in every synthesized pipeline state, `valid_exp i` for `i > 0` is
`hold[i] ? ready[i] : (ready[i] AND valid[i-1])` and `valid_exp 0` is
`ready[0]`, and every non-final stage's appended valid-set statement (the
last statement `_add_control_chain` appends) assigns exactly this
expression to `valid[step]`. -/
theorem valid_exp_matches_spec (pname : String) (nstages : Nat) (st : StageFlags)
    (hlast : st.step ≠ nstages - 1) :
    (∀ i, validExp pname i = specValidExp pname i) ∧
    (addControlChain pname nstages st).getLast? =
      some (AHDL.amove (AHDL.avar (validSignal pname st.step) Ctx.store)
        (specValidExp pname st.step)) := by
  constructor
  · intro i
    exact validExp_eq_spec pname i
  · have hne : (st.step == nstages - 1) = false := by
      simp [hlast]
    unfold addControlChain
    rw [hne]
    simp only [Bool.not_false, if_true]
    rw [validExp_eq_spec]
    cases hh : st.hasHold with
    | false => simp
    | true =>
        cases hvp : vPrevOf pname st with
        | none => simp
        | some v => simp

/-- Witness for C1 at a concrete non-final stage. -/
theorem valid_exp_matches_spec_witness :
    (1 : Nat) ≠ 3 - 1 ∧
    ((∀ i, validExp "p" i = specValidExp "p" i) ∧
      (addControlChain "p" 3 ⟨1, false, false, true⟩).getLast? =
        some (AHDL.amove (AHDL.avar (validSignal "p" 1) Ctx.store)
          (specValidExp "p" 1))) :=
  ⟨by decide, valid_exp_matches_spec "p" 3 ⟨1, false, false, true⟩ (by decide)⟩

/-- The ready right-hand side exactly as the specification phrases it:
`ready[i+1] AND enable[i]` for a stage gating on an external interface,
else `ready[i+1]`; the last stage's incoming ready term is the constant 1. -/
def specReadyRhs (pname : String) (nstages : Nat) (st : StageFlags) : AHDL :=
  let rNext := if !(st.step == nstages - 1) then
      AHDL.avar (readySignal pname (st.step + 1)) Ctx.load
    else AHDL.aconst 1
  if st.hasEnable then
    AHDL.binop "BitAnd" rNext (AHDL.avar (enableSignal pname st.step) Ctx.load)
  else
    rNext

/-- A concrete source stage (stage 0 of a 2-stage pipeline whose codes
contain a step-0 `AHDL_SEQ` around an `AHDL_IO_WRITE`): the port write
marks the stage both gating and source. -/
def srcStageCodes : List AHDL :=
  [AHDL.seq (AHDL.ioWrite (AHDL.avar ⟨"q", 8, ["output"]⟩ Ctx.store) (AHDL.aconst 5)) 0 2]

/-- C2 counterexample: for the IO-write (source) stage built from
`srcStageCodes`, the assigned ready value is
`(~hold[1]) AND enable[0]`, not `ready[1] AND enable[0]` as the claim
states for every stage that gates on an external interface. -/
theorem ready_chain_source_counterexample :
    (makeStageFlags 0 srcStageCodes false).hasEnable = true ∧
    (makeStageFlags 0 srcStageCodes false).isSource = true ∧
    readyRhs "p" 2 (makeStageFlags 0 srcStageCodes false) ≠
      specReadyRhs "p" 2 (makeStageFlags 0 srcStageCodes false) ∧
    readyRhs "p" 2 (makeStageFlags 0 srcStageCodes false) =
      AHDL.binop "BitAnd"
        (AHDL.unop "Invert" (AHDL.avar (holdSignal "p" 1) Ctx.load))
        (AHDL.avar (enableSignal "p" 0) Ctx.load) := by
  refine ⟨rfl, rfl, ?_, rfl⟩
  simp [readyRhs, specReadyRhs, makeStageFlags, srcStageCodes, codeTriggersEnable,
    codeTriggersSource, holdSignal, readySignal, enableSignal, pipelineSignal]

/-- C2 (amended): the ready chain is computed back-to-front with the last
stage's incoming term the constant 1; a gating non-source stage is assigned
`ready[i+1] AND enable[i]`; a gating IO-write (source) stage is instead
assigned `(NOT hold[i+1]) AND enable[i]` when a later stage exists and
`enable[i]` alone otherwise; a non-gating stage is assigned `ready[i+1]`.
The worker-pipeline builder in stg.py has no source case and matches the
claim's formula for every stage. -/
theorem ready_chain_amended (pname : String) (nstages : Nat) (st : StageFlags) :
    (readyRhsWorker pname nstages st = specReadyRhs pname nstages st) ∧
    (st.hasEnable = false → readyRhs pname nstages st = specReadyRhs pname nstages st) ∧
    (st.hasEnable = true → st.isSource = false →
      readyRhs pname nstages st = specReadyRhs pname nstages st) ∧
    (st.hasEnable = true → st.isSource = true → st.step + 1 < nstages →
      readyRhs pname nstages st =
        AHDL.binop "BitAnd"
          (AHDL.unop "Invert" (AHDL.avar (holdSignal pname (st.step + 1)) Ctx.load))
          (AHDL.avar (enableSignal pname st.step) Ctx.load)) ∧
    (st.hasEnable = true → st.isSource = true → ¬ (st.step + 1 < nstages) →
      readyRhs pname nstages st = AHDL.avar (enableSignal pname st.step) Ctx.load) := by
  refine ⟨?_, ?_, ?_, ?_, ?_⟩
  · unfold readyRhsWorker specReadyRhs
    rfl
  · intro h
    unfold readyRhs specReadyRhs
    rw [h]
    simp
  · intro he hs
    unfold readyRhs specReadyRhs
    rw [he, hs]
    simp
  · intro he hs hlt
    unfold readyRhs
    rw [he, hs]
    simp only [if_true]
    have : (nstages > st.step + 1) = True := by
      simp [hlt]
    simp [hlt]
  · intro he hs hge
    unfold readyRhs
    rw [he, hs]
    simp [hge]

/-- Witness for C2 (amended) at a concrete gating, non-source stage. -/
theorem ready_chain_amended_witness :
    ((⟨1, true, false, true⟩ : StageFlags).hasEnable = true) ∧
    readyRhs "p" 3 ⟨1, true, false, true⟩ = specReadyRhs "p" 3 ⟨1, true, false, true⟩ :=
  ⟨rfl, (ready_chain_amended "p" 3 ⟨1, true, false, true⟩).2.2.1 rfl rfl⟩

/-- `Signal.is_reg` — tag membership. -/
def sigIsReg (s : Sig) : Bool := s.tags.contains "reg"

/-- `Signal.is_net` — tag membership. -/
def sigIsNet (s : Sig) : Bool := s.tags.contains "net"

/-- `Signal.is_induction` — tag membership. -/
def sigIsInduction (s : Sig) : Bool := s.tags.contains "induction"

/-- `Signal.is_pipeline_ctrl` — tag membership. -/
def sigIsPipelineCtrl (s : Sig) : Bool := s.tags.contains "pipeline_ctrl"

/-- The trigger condition for register-slice insertion in
`PipelineStageBuilder._build_pipeline_stages` (stg_pipeline.py lines
190-208): signals tagged pipeline-control are skipped; a signal is sliced
when its maximum def-to-use stage distance exceeds 1, or exceeds 0 for
induction- or net-tagged signals. -/
def sliceTrigger (sig : Sig) (dist : Nat) : Bool :=
  !sigIsPipelineCtrl sig &&
    (1 < dist || ((sigIsInduction sig || sigIsNet sig) && 0 < dist))

/-- `is_normal_reg` of `_insert_register_slices`: a register that is not an
induction variable (it keeps its value for one stage by itself). -/
def isNormalReg (sig : Sig) : Bool := sigIsReg sig && !sigIsInduction sig

/-- The tag rewrite applied to generated slice signals
(`tags.remove('net'); tags.add('reg')` when 'net' is present). -/
def sliceTags (tags : List String) : List String :=
  if tags.contains "net" then (tags.filter (fun t => t ≠ "net")) ++ ["reg"] else tags

/-- The slice register for stage `num` of signal `sig`: name
`<sig>_<num>`, same width, net tag replaced by reg. -/
def sliceSig (sig : Sig) (num : Nat) : Sig :=
  { name := sig.name ++ "_" ++ toString num, width := sig.width, tags := sliceTags sig.tags }

/-- The `start_n` used by `_insert_register_slices` after the
`is_normal_reg` adjustment (`start_n += 1`); the caller passes
`start_n = d_stage_n`. -/
def sliceStart (sig : Sig) (d : Nat) : Nat :=
  if isNormalReg sig then d + 1 else d

/-- The skip test of the generation and rewrite loops of
`_insert_register_slices`: a stage is kept unless it is the def stage, or
(for a normal register) the stage at distance 1. -/
def sliceKeep (normal : Bool) (d num : Nat) : Bool :=
  !(num == d) && !(normal && num - d == 1)

/-- The slice registers generated by the first loop of
`_insert_register_slices` (stg_pipeline.py lines 317-327): one per
`num` in `range(start_n, end_n + 1)`, skipping the def stage and, for a
normal register, the stage at distance 1.  `end_n = d + dist`. -/
def sliceRegs (sig : Sig) (d dist : Nat) : List Sig :=
  ((List.range' (sliceStart sig d) (d + dist + 1 - sliceStart sig d)).filter
    (sliceKeep (isNormalReg sig) d)).map (sliceSig sig)

/-- The signal a use placed in stage `num` reads after the rewrite loop of
`_insert_register_slices` (lines 328-336): the original signal at the def
stage and, for a normal register, at distance 1; otherwise the stage's
slice register. -/
def useSigAfterSlices (sig : Sig) (d : Nat) (num : Nat) : Sig :=
  if sliceKeep (isNormalReg sig) d num then sliceSig sig num else sig

/-- The relay statements generated by the last loop of
`_insert_register_slices` (lines 337-350): for each `num` in
`range(start_n, end_n)` a move of the previous stage's value into the
next slice register, appended to the guard of `stages[num]`; the first
slice reads the original register. -/
def sliceMoves (sig : Sig) (d dist : Nat) : List (Nat × AHDL) :=
  (List.range' (sliceStart sig d) (d + dist - sliceStart sig d)).map (fun num =>
    (num,
      AHDL.amove (AHDL.avar (sliceSig sig (num + 1)) Ctx.store)
        (AHDL.avar (if num == sliceStart sig d then sig else sliceSig sig num) Ctx.load)))

/-- A plain (non-induction) register signal defined at stage 0 whose last
use is at stage 2: the trigger fires (distance 2 > 1). -/
def plainRegSig : Sig := ⟨"x0", 8, ["reg", "int"]⟩

/-- C3 counterexample: for the plain register `plainRegSig` with def stage
0 and maximum use distance 2 (a triggering configuration), register-slice
insertion creates exactly one slice register (`x0_2`) — not `distance = 2`
— and the use at distance 1 keeps reading the original register rather
than a slice register. -/
theorem register_slices_counterexample :
    sliceTrigger plainRegSig 2 = true ∧
    (sliceRegs plainRegSig 0 2).length = 1 ∧
    (sliceRegs plainRegSig 0 2).length ≠ 2 ∧
    useSigAfterSlices plainRegSig 0 1 = plainRegSig := by
  refine ⟨rfl, rfl, by decide, rfl⟩

/-- Helper: the keep test holds at any stage strictly past distance 1. -/
theorem sliceKeep_far (normal : Bool) (d num : Nat) (h1 : d + 2 ≤ num) :
    sliceKeep normal d num = true := by
  unfold sliceKeep
  have e1 : (num == d) = false := by
    simp
    omega
  have e2 : (num - d == 1) = false := by
    simp
    omega
  rw [e1, e2]
  simp

/-- Helper: slice registers of a non-normal (wire or induction) signal:
one per stage from `d + 1` to `d + dist`. -/
theorem sliceRegs_nonnormal (sig : Sig) (d dist : Nat) (h : isNormalReg sig = false) :
    sliceRegs sig d dist = ((List.range' (d + 1) dist).map (sliceSig sig)) := by
  unfold sliceRegs sliceStart
  rw [h]
  simp only [Bool.false_eq_true, if_false]
  congr 1
  have hlen : d + dist + 1 - d = dist + 1 := by omega
  rw [hlen, List.range'_succ]
  simp only [List.filter]
  have hd0 : sliceKeep false d d = false := by
    unfold sliceKeep
    simp
  rw [hd0]
  apply List.filter_eq_self.mpr
  intro a ha
  have := List.mem_range'.mp ha
  unfold sliceKeep
  have e1 : (a == d) = false := by
    simp
    omega
  rw [e1]
  simp

/-- Helper: slice registers of a normal register: one per stage from
`d + 2` to `d + dist`. -/
theorem sliceRegs_normal (sig : Sig) (d dist : Nat) (h : isNormalReg sig = true)
    (hd : 1 ≤ dist) :
    sliceRegs sig d dist = ((List.range' (d + 2) (dist - 1)).map (sliceSig sig)) := by
  unfold sliceRegs sliceStart
  rw [h]
  simp only [if_true]
  congr 1
  have hlen : d + dist + 1 - (d + 1) = dist := by omega
  rw [hlen]
  rcases Nat.exists_eq_succ_of_ne_zero (by omega : dist ≠ 0) with ⟨m, hm⟩
  subst hm
  rw [List.range'_succ]
  simp only [List.filter]
  have h1 : sliceKeep true d (d + 1) = false := by
    unfold sliceKeep
    have : d + 1 - d = 1 := by omega
    simp [this]
  rw [h1]
  have hm1 : m + 1 - 1 = m := by omega
  rw [hm1]
  have h2 : d + 1 + 1 = d + 2 := by omega
  rw [h2]
  apply List.filter_eq_self.mpr
  intro a ha
  have := List.mem_range'.mp ha
  apply sliceKeep_far
  omega

/-- C3 (amended): under the trigger condition, register-slice insertion
creates a chain of exactly `distance` slice registers for wire/induction
signals, but only `distance - 1` for a plain register (the defining
register itself covers the stage at distance 1, whose uses keep reading
it); the relay moves connect consecutive stages, the first relay reading
the original signal and each later relay reading the previous stage's
slice register, and every use at a rewritten stage reads its own stage's
slice register. -/
theorem register_slices_amended (sig : Sig) (d dist : Nat)
    (htrig : sliceTrigger sig dist = true) :
    (sliceRegs sig d dist).length = (if isNormalReg sig then dist - 1 else dist) ∧
    (sliceMoves sig d dist).length = (if isNormalReg sig then dist - 1 else dist) ∧
    (∀ p ∈ sliceMoves sig d dist,
      p.2 = AHDL.amove (AHDL.avar (sliceSig sig (p.1 + 1)) Ctx.store)
        (AHDL.avar (if p.1 == sliceStart sig d then sig else sliceSig sig p.1) Ctx.load)) ∧
    ((sliceMoves sig d dist).map Prod.fst =
      List.range' (sliceStart sig d) (d + dist - sliceStart sig d)) ∧
    (∀ num, d < num → ¬(isNormalReg sig = true ∧ num = d + 1) →
      useSigAfterSlices sig d num = sliceSig sig num) ∧
    (sig.tags.contains "net" = true →
      ∀ num, (sliceSig sig num).tags.contains "reg" = true ∧
        (sliceSig sig num).tags.contains "net" = false) := by
  have hdist : 1 ≤ dist := by
    simp only [sliceTrigger, Bool.and_eq_true, Bool.or_eq_true, decide_eq_true_eq] at htrig
    rcases htrig with ⟨-, h3 | ⟨-, h4⟩⟩
    · omega
    · omega
  refine ⟨?_, ?_, ?_, ?_, ?_, ?_⟩
  · cases hn : isNormalReg sig with
    | false =>
        rw [sliceRegs_nonnormal sig d dist hn]
        simp
    | true =>
        rw [sliceRegs_normal sig d dist hn hdist]
        simp
  · unfold sliceMoves sliceStart
    cases hn : isNormalReg sig with
    | false =>
        simp only [Bool.false_eq_true, if_false]
        rw [List.length_map, List.length_range']
        omega
    | true =>
        simp only [if_true]
        rw [List.length_map, List.length_range']
        omega
  · intro p hp
    unfold sliceMoves at hp
    rcases List.mem_map.mp hp with ⟨num, hnum, heq⟩
    rw [← heq]
  · unfold sliceMoves
    rw [List.map_map]
    have hf : (Prod.fst ∘ fun num => ((num : Nat),
        AHDL.amove (AHDL.avar (sliceSig sig (num + 1)) Ctx.store)
          (AHDL.avar (if num == sliceStart sig d then sig else sliceSig sig num) Ctx.load))) =
        id := by
      funext n
      rfl
    rw [hf, List.map_id]
  · intro num h1 h3
    unfold useSigAfterSlices
    have hkeep : sliceKeep (isNormalReg sig) d num = true := by
      unfold sliceKeep
      have e1 : (num == d) = false := by
        simp
        omega
      rw [e1]
      cases hn : isNormalReg sig with
      | false => simp
      | true =>
          have e2 : (num - d == 1) = false := by
            simp
            intro hc
            exact h3 ⟨hn, by omega⟩
          rw [e2]
          simp
    rw [hkeep]
    simp
  · intro hnet num
    unfold sliceSig sliceTags
    rw [hnet]
    simp only [if_true]
    constructor
    · simp
    · simp

/-- Witness for C3 (amended) at a concrete wire signal of distance 2. -/
theorem register_slices_witness :
    sliceTrigger ⟨"w", 8, ["net"]⟩ 2 = true ∧
    (sliceRegs ⟨"w", 8, ["net"]⟩ 0 2).length =
      (if isNormalReg ⟨"w", 8, ["net"]⟩ then 2 - 1 else 2) :=
  ⟨by decide, (register_slices_amended ⟨"w", 8, ["net"]⟩ 0 2 (by decide)).1⟩

end Pipeline

namespace Translator

/-- The IR expression fragment relevant to `AHDLTranslator.visit_ARRAY`
(stg.py lines 1015-1020): constants and other (non-constant)
expressions; an item of an array literal. -/
inductive IR where
  | iconst (v : Int)
  | ivar (name : String)
  | ibinop (op : String) (a b : IR)
  deriving DecidableEq, Repr

/-- `ir.is_a(CONST)`. -/
def IR.isConst : IR → Bool
  | IR.iconst _ => true
  | _ => false

/-- The `ARRAY` IR node: item list, repeat multiplier, source line. -/
structure ArrayIR where
  items : List IR
  rep : IR
  lineno : Nat
  deriving DecidableEq, Repr

/-- Python list repetition `items * n` for `n : Int` (negative or zero
multipliers yield the empty list). -/
def listRepeat (items : List IR) (n : Int) : List IR :=
  (List.replicate n.toNat items).flatten

/-- The array-expansion step of `AHDLTranslator.visit_ARRAY` (stg.py
lines 1015-1020): a non-constant repeat multiplier is a fatal error
carrying the originating statement's line number (`error_info(self.scope,
ir.lineno)` plus the raised `RuntimeError`); a constant multiplier
expands the item list by that factor (`ir.items * ir.repeat.value`,
cloned items embedded as pure values).  The subsequent memory
initialization sequence is outside this claim's scope. -/
def visitARRAYExpand (ir : ArrayIR) : Except (Nat × String) (List IR) :=
  match ir.rep with
  | IR.iconst v => Except.ok (listRepeat ir.items v)
  | _ => Except.error (ir.lineno, "multiplier for the sequence must be a constant")

/-- C9: `visit_ARRAY` raises a fatal error carrying the originating
statement's line number if and only if the repeat multiplier is not a
constant; with a constant multiplier no error is raised and the item list
is expanded by that constant factor. -/
theorem visit_array_const_iff (ir : ArrayIR) :
    ((∃ e, visitARRAYExpand ir = Except.error e) ↔ ir.rep.isConst = false) ∧
    (∀ l m, visitARRAYExpand ir = Except.error (l, m) → l = ir.lineno) ∧
    (∀ v, ir.rep = IR.iconst v →
      visitARRAYExpand ir = Except.ok (listRepeat ir.items v) ∧
      (listRepeat ir.items v).length = ir.items.length * v.toNat) := by
  refine ⟨⟨?_, ?_⟩, ?_, ?_⟩
  · rintro ⟨e, he⟩
    unfold visitARRAYExpand at he
    cases hrep : ir.rep with
    | iconst v =>
        rw [hrep] at he
        simp at he
    | ivar n => rfl
    | ibinop o a b => rfl
  · intro hnc
    unfold visitARRAYExpand
    cases hrep : ir.rep with
    | iconst v =>
        rw [hrep] at hnc
        simp [IR.isConst] at hnc
    | ivar n =>
        exact ⟨(ir.lineno, "multiplier for the sequence must be a constant"), rfl⟩
    | ibinop o a b =>
        exact ⟨(ir.lineno, "multiplier for the sequence must be a constant"), rfl⟩
  · intro l m he
    unfold visitARRAYExpand at he
    cases hrep : ir.rep with
    | iconst v =>
        rw [hrep] at he
        simp at he
    | ivar n =>
        rw [hrep] at he
        simp at he
        exact he.1.symm
    | ibinop o a b =>
        rw [hrep] at he
        simp at he
        exact he.1.symm
  · intro v hv
    constructor
    · unfold visitARRAYExpand
      rw [hv]
    · unfold listRepeat
      rw [List.length_flatten]
      have hmap : (List.replicate v.toNat ir.items).map List.length =
          List.replicate v.toNat ir.items.length := by
        rw [List.map_replicate]
      rw [hmap, List.sum_replicate]
      simp [Nat.mul_comm]

/-- Witness for C9: a constant multiplier of 3 over two items expands to
six items; a variable multiplier is rejected with the statement's line. -/
theorem visit_array_const_iff_witness :
    visitARRAYExpand ⟨[IR.iconst 1, IR.iconst 2], IR.iconst 3, 77⟩ =
      Except.ok (listRepeat [IR.iconst 1, IR.iconst 2] 3) ∧
    (∃ e, visitARRAYExpand ⟨[IR.iconst 1], IR.ivar "n", 99⟩ = Except.error e) := by
  constructor
  · exact ((visit_array_const_iff ⟨[IR.iconst 1, IR.iconst 2], IR.iconst 3, 77⟩).2.2 3 rfl).1
  · exact (visit_array_const_iff ⟨[IR.iconst 1], IR.ivar "n", 99⟩).1.mpr rfl

end Translator

namespace ScopeM

/-- A compiler symbol as far as the ancestor relation is concerned
(scope.py): a name, a type and the optional `ancestor` back-reference to
the pre-SSA symbol it was versioned from. -/
inductive Symb where
  | mk (name : String) (typ : String) (anc : Option Symb)

/-- The symbol's name. -/
def Symb.name : Symb → String
  | Symb.mk n _ _ => n

/-- The symbol's type. -/
def Symb.typ : Symb → String
  | Symb.mk _ t _ => t

/-- The symbol's `ancestor` field. -/
def Symb.anc : Symb → Option Symb
  | Symb.mk _ _ a => a

/-- Length of the ancestor chain hanging off a symbol. -/
def Symb.ancDepth : Symb → Nat
  | Symb.mk _ _ none => 0
  | Symb.mk _ _ (some a) => a.ancDepth + 1

/-- `Scope.inherit_sym` (polyphony/compiler/scope.py lines 312-319): the
returned symbol carries the requested new name (via `gen_sym`), the
original's type, and as ancestor the original's ancestor when it has one,
else the original symbol itself. -/
def inheritSym (origSym : Symb) (newName : String) : Symb :=
  Symb.mk newName origSym.typ
    (some (match origSym.anc with
      | some a => a
      | none => origSym))

/-- C10: `inherit_sym` keeps the ancestor relation flat — the returned
symbol's ancestor is the original's ancestor when one exists, otherwise
the original itself; hence when the original's chain has length at most
one (as for every pre-SSA symbol or SSA version), the new symbol's
ancestor is ancestor-free (an unversioned pre-SSA symbol) and the new
chain has length exactly one. -/
theorem inherit_sym_flat (origSym : Symb) (newName : String)
    (h : origSym.ancDepth ≤ 1) :
    (inheritSym origSym newName).anc =
      some (match origSym.anc with | some a => a | none => origSym) ∧
    (∃ a, (inheritSym origSym newName).anc = some a ∧ a.ancDepth = 0) ∧
    (inheritSym origSym newName).ancDepth = 1 := by
  cases origSym with
  | mk n t anc =>
      cases anc with
      | none =>
          exact ⟨rfl, ⟨Symb.mk n t none, rfl, rfl⟩, rfl⟩
      | some a =>
          have ha : a.ancDepth = 0 := by
            have hd : (Symb.mk n t (some a)).ancDepth = a.ancDepth + 1 := rfl
            omega
          refine ⟨rfl, ⟨a, rfl, ha⟩, ?_⟩
          show a.ancDepth + 1 = 1
          omega

/-- Witness for C10 at a concrete one-deep symbol. -/
theorem inherit_sym_flat_witness :
    (Symb.mk "x" "int" (some (Symb.mk "x0" "int" none))).ancDepth ≤ 1 ∧
    (∃ a, (inheritSym (Symb.mk "x" "int" (some (Symb.mk "x0" "int" none))) "x#1").anc =
      some a ∧ a.ancDepth = 0) :=
  ⟨Nat.le_refl 1, (inherit_sym_flat (Symb.mk "x" "int" (some (Symb.mk "x0" "int" none))) "x#1"
    (Nat.le_refl 1)).2.1⟩

end ScopeM

namespace Stg

/-- A control state (stg.py `State`): a name, a step number and an
ordered code list. -/
structure St where
  name : String
  step : Nat
  codes : List AHDL
  deriving Repr

/-- The scope kinds `StateBuilder._build_states_for_block` branches on. -/
inductive SKind where
  | worker
  | testbench
  | other
  deriving DecidableEq, Repr

/-- Is a code one of the three admissible terminal operations
(`is_a([AHDL_TRANSITION, AHDL_TRANSITION_IF, AHDL_META_WAIT])`)? -/
def endsCtrl : AHDL → Bool
  | AHDL.transition _ => true
  | AHDL.transitionIf _ _ => true
  | AHDL.metaWait _ _ => true
  | _ => false

/-- One cycle group turned into a state (stg.py lines 449-460): the
group's item list, with a fall-through `AHDL_TRANSITION(None)` appended
when the last item is not already a transition/wait; an empty group would
hit `codes[-1]` on an empty list (IndexError), embedded as `none`. -/
def groupState (pre : String) (step : Nat) (items : List AHDL) : Option St :=
  match items.getLast? with
  | none => none
  | some lastItem =>
      some ⟨pre ++ "_S" ++ toString step, step + 1,
        if endsCtrl lastItem then items else items ++ [AHDL.transition none]⟩

/-- The jump fix-up of lines 466-472: the block's trailing `JUMP` target
is written into the last state's terminal transition; a terminal that is
neither a transition nor a wait is a fatal assertion. -/
def setJump (tgt : Nat) (s : St) : Option St :=
  match s.codes.getLast? with
  | some (AHDL.transition _) =>
      some { s with codes := s.codes.dropLast ++ [AHDL.transition (some (Tgt.tblock tgt))] }
  | some (AHDL.metaWait _k _t) => some s
  | _ => none

/-- Does the state's code list end in a transition or a conditional
transition (the assertion of line 506)? -/
def endsTransOrIf (s : St) : Bool :=
  match s.codes.getLast? with
  | some (AHDL.transition _) => true
  | some (AHDL.transitionIf _ _) => true
  | _ => false

/-- The per-group state list of the first loop of
`_build_states_for_block` (the python list building over
`self.scheduled_items.pop()`). -/
def groupStates (pre : String) : List (Nat × List AHDL) → Option (List St)
  | [] => some []
  | p :: rest => do
      let s ← groupState pre p.1 p.2
      let tail ← groupStates pre rest
      some (s :: tail)

/-- The jump fix-up stage of lines 466-472, lifted to the state list (the
fix-up touches `states[-1]`). -/
def jumpStage (blkJump : Option Nat) (states0 : List St) : Option (List St) :=
  match blkJump with
  | none => some states0
  | some t =>
      match states0.getLast? with
      | none => none
      | some lastSt => do
          let lastSt2 ← setJump t lastSt
          some (states0.dropLast ++ [lastSt2])

/-- The testbench finish codes of lines 494-497. -/
def tbFinishCodes : List AHDL :=
  [AHDL.inline "$display(\"%5t:finish\", $time)", AHDL.inline "$finish()"]

/-- The `is_first` half of the worker/testbench treatment (lines
481-488): the first state is renamed to `..._INIT`, asserting an
admissible terminal. -/
def wtbFirst (pre : String) (isFirst : Bool) (states1 : List St) : Option (List St) :=
  if isFirst then
    match states1 with
    | [] => none
    | first :: rest =>
        match first.codes.getLast? with
        | some c =>
            if endsCtrl c then
              some ({ first with name := pre ++ "_INIT" } :: rest)
            else none
        | none => none
  else some states1

/-- The `is_last` half of the worker/testbench treatment (lines 489-502):
an explicit FINISH state is appended — carrying a pending transition for a
worker, or the `$display`/`$finish` inlines for a testbench. -/
def wtbLast (pre : String) (kind : SKind) (isLast : Bool) (states2 : List St) :
    Option (List St) :=
  if isLast then
    match states2.getLast? with
    | none => none
    | some lastSt =>
        some (states2 ++ [⟨pre ++ "_FINISH", lastSt.step + 1,
          if kind == SKind.worker then [AHDL.transition none] else tbFinishCodes⟩])
  else some states2

/-- The worker/testbench main-region special treatment of lines 480-502. -/
def wtbStage (pre : String) (kind : SKind) (isFirst isLast : Bool)
    (states1 : List St) : Option (List St) :=
  (wtbFirst pre isFirst states1).bind (wtbLast pre kind isLast)

/-- The `is_first` half of the ordinary-callable treatment (lines
504-513): assert the first state ends in a transition or conditional
transition, and prepend a call-entry prolog state unless the region is a
single state. -/
def ordinaryFirst (stgName pre : String) (isFirst isLast : Bool)
    (states1 : List St) : Option (List St) :=
  if isFirst then
    match states1 with
    | [] => none
    | first :: rest =>
        if endsTransOrIf first then
          if !(decide (states1.length ≤ 1) && isLast) then
            some (⟨pre ++ "_INIT", 0,
              [AHDL.seq (AHDL.calleeProlog stgName) 0 1, AHDL.transition none]⟩ ::
              first :: rest)
          else some states1
        else none
  else some states1

/-- The `is_last` half of the ordinary-callable treatment (lines 514-521):
rename the last state to `..._FINISH`, assert its terminal is an
unconditional transition, and insert the call-return epilog before it. -/
def ordinaryLast (stgName pre : String) (isLast : Bool) (states3 : List St) :
    Option (List St) :=
  if isLast then
    match states3.getLast? with
    | none => none
    | some lastSt =>
        match lastSt.codes.getLast? with
        | some (AHDL.transition t) =>
            some (states3.dropLast ++
              [{ lastSt with
                  name := pre ++ "_FINISH"
                  codes := lastSt.codes.dropLast ++
                    [AHDL.seq (AHDL.calleeEpilog stgName) 0 1, AHDL.transition t] }])
        | _ => none
  else some states3

/-- The ordinary-callable main-region special treatment of lines 503-521. -/
def ordinaryStage (stgName pre : String) (isFirst isLast : Bool)
    (states1 : List St) : Option (List St) :=
  (ordinaryFirst stgName pre isFirst isLast states1).bind (ordinaryLast stgName pre isLast)

/-- `StateBuilder._build_states_for_block` (stg.py lines 447-522).
Inputs: the sorted (cycle, item-group) list drained from the scheduled
item queue, the block's optional trailing jump target, the region/block
flags, and the scope kind.  Fatal assertions are `none`. -/
def buildStatesForBlock (stgName pre : String) (groups : List (Nat × List AHDL))
    (blkJump : Option Nat) (isMain isFirst isLast : Bool) (kind : SKind) :
    Option (List St) := do
  let base ← groupStates pre groups
  let states0 := if base.isEmpty then [⟨pre ++ "_S0", 1, [AHDL.transition none]⟩] else base
  let states1 ← jumpStage blkJump states0
  if !isMain then
    some states1
  else if kind == SKind.worker || kind == SKind.testbench then
    wtbStage pre kind isFirst isLast states1
  else
    ordinaryStage stgName pre isFirst isLast states1

/-- A state whose code list ends in one of the three admissible terminal
operations. -/
def stOk (s : St) : Prop := ∃ c, s.codes.getLast? = some c ∧ endsCtrl c = true

/-- Helper: every state built from a cycle group has an admissible
terminal. -/
theorem groupState_ok (pre : String) (n : Nat) (items : List AHDL) (s : St)
    (h : groupState pre n items = some s) : stOk s := by
  unfold groupState at h
  cases hl : items.getLast? with
  | none =>
      rw [hl] at h
      simp at h
  | some lastItem =>
      rw [hl] at h
      cases h
      cases he : endsCtrl lastItem with
      | true =>
          refine ⟨lastItem, ?_, he⟩
          simp [he, hl]
      | false =>
          refine ⟨AHDL.transition none, ?_, rfl⟩
          simp [he, List.getLast?_concat]

/-- Helper: every state of the per-group list has an admissible
terminal. -/
theorem groupStates_ok (pre : String) (gs : List (Nat × List AHDL)) (l : List St)
    (h : groupStates pre gs = some l) : ∀ s ∈ l, stOk s := by
  induction gs generalizing l with
  | nil =>
      unfold groupStates at h
      cases h
      intro s hs
      simp at hs
  | cons p rest ih =>
      unfold groupStates at h
      rcases Option.bind_eq_some.mp h with ⟨s0, hs0, h2⟩
      rcases Option.bind_eq_some.mp h2 with ⟨tail, htail, h3⟩
      cases h3
      intro s hs
      rcases List.mem_cons.mp hs with rfl | hmem
      · exact groupState_ok pre p.1 p.2 s hs0
      · exact ih tail htail s hmem

/-- Helper: the jump fix-up leaves every state with an admissible
terminal. -/
theorem setJump_ok (t : Nat) (s s2 : St) (h : setJump t s = some s2) : stOk s2 := by
  unfold setJump at h
  cases hl : s.codes.getLast? with
  | none =>
      rw [hl] at h
      simp at h
  | some c =>
      rw [hl] at h
      cases c with
      | transition tg =>
          cases h
          exact ⟨AHDL.transition (some (Tgt.tblock t)), by simp [List.getLast?_concat], rfl⟩
      | metaWait k tr =>
          cases h
          exact ⟨AHDL.metaWait k tr, hl, rfl⟩
      | avar a b => cases h
      | aconst a => cases h
      | asym a => cases h
      | unop a b => cases h
      | binop a b c => cases h
      | ifExp a b c => cases h
      | amove a b => cases h
      | subscript a b => cases h
      | transitionIf a b => cases h
      | seq a b c => cases h
      | ioRead a => cases h
      | ioWrite a b => cases h
      | pipelineGuard a b => cases h
      | aif a b => cases h
      | proccall a b => cases h
      | inline a => cases h
      | calleeProlog a => cases h
      | calleeEpilog a => cases h
      | anop a => cases h

/-- Helper: the jump stage preserves terminal admissibility and
non-emptiness. -/
theorem jumpStage_ok (bj : Option Nat) (st0 st1 : List St)
    (h : jumpStage bj st0 = some st1) (hok : ∀ s ∈ st0, stOk s) (hne : st0 ≠ []) :
    (∀ s ∈ st1, stOk s) ∧ st1 ≠ [] := by
  unfold jumpStage at h
  cases bj with
  | none =>
      cases h
      exact ⟨hok, hne⟩
  | some t =>
      cases hl : st0.getLast? with
      | none =>
          rw [hl] at h
          simp at h
      | some lastSt =>
          rw [hl] at h
          rcases Option.bind_eq_some.mp h with ⟨lastSt2, hset, h2⟩
          cases h2
          constructor
          · intro s hs
            rcases List.mem_append.mp hs with hmem | hmem
            · exact hok s (List.dropLast_subset _ hmem)
            · rcases List.mem_singleton.mp hmem with rfl
              exact setJump_ok t lastSt s hset
          · simp

/-- Helper: the worker/testbench stage keeps admissible terminals except
for the testbench FINISH state, and keeps the list non-empty. -/
theorem wtbStage_props (pre : String) (kind : SKind) (f l : Bool) (st1 st2 : List St)
    (h : wtbStage pre kind f l st1 = some st2)
    (hok : ∀ s ∈ st1, stOk s) (hne : st1 ≠ []) :
    (∀ s ∈ st2, stOk s ∨ (l = true ∧ kind ≠ SKind.worker ∧ s.codes = tbFinishCodes)) ∧
    st2 ≠ [] := by
  unfold wtbStage at h
  rcases Option.bind_eq_some.mp h with ⟨states2, h2, h3⟩
  unfold wtbFirst at h2
  unfold wtbLast at h3
  have hstep : (∀ s ∈ states2, stOk s) ∧ states2 ≠ [] := by
    cases f with
    | false =>
        simp only [Bool.false_eq_true, if_false] at h2
        cases h2
        exact ⟨hok, hne⟩
    | true =>
        simp only [if_true] at h2
        cases st1 with
        | nil => simp at h2
        | cons first rest =>
            dsimp only at h2
            cases hl : first.codes.getLast? with
            | none =>
                rw [hl] at h2
                simp at h2
            | some c =>
                rw [hl] at h2
                dsimp only at h2
                cases hc : endsCtrl c with
                | false =>
                    rw [hc] at h2
                    simp at h2
                | true =>
                    rw [hc] at h2
                    simp only [if_true, Option.some.injEq] at h2
                    subst h2
                    constructor
                    · intro s hs
                      rcases List.mem_cons.mp hs with rfl | hmem
                      · exact ⟨c, hl, hc⟩
                      · exact hok s (List.mem_cons_of_mem _ hmem)
                    · simp
  rcases hstep with ⟨hok2, hne2⟩
  cases l with
  | false =>
      simp only [Bool.false_eq_true, if_false] at h3
      cases h3
      constructor
      · intro s hs
        exact Or.inl (hok2 s hs)
      · exact hne2
  | true =>
      simp only [if_true] at h3
      cases hl2 : states2.getLast? with
      | none =>
          rw [hl2] at h3
          simp at h3
      | some lastSt =>
          rw [hl2] at h3
          simp only [Option.some.injEq] at h3
          subst h3
          constructor
          · intro s hs
            rcases List.mem_append.mp hs with hmem | hmem
            · exact Or.inl (hok2 s hmem)
            · rcases List.mem_singleton.mp hmem with rfl
              cases hk : (kind == SKind.worker) with
              | true =>
                  left
                  refine ⟨AHDL.transition none, ?_, rfl⟩
                  simp [hk]
              | false =>
                  right
                  refine ⟨rfl, ?_, ?_⟩
                  · intro hkk
                    rw [hkk] at hk
                    simp at hk
                  · simp [hk]
          · simp

/-- Helper: the ordinary-callable stage keeps admissible terminals and a
non-empty list. -/
theorem ordinaryStage_props (stgName pre : String) (f l : Bool) (st1 st2 : List St)
    (h : ordinaryStage stgName pre f l st1 = some st2)
    (hok : ∀ s ∈ st1, stOk s) (hne : st1 ≠ []) :
    (∀ s ∈ st2, stOk s) ∧ st2 ≠ [] := by
  unfold ordinaryStage at h
  rcases Option.bind_eq_some.mp h with ⟨states3, h2, h3⟩
  unfold ordinaryFirst at h2
  unfold ordinaryLast at h3
  have hstep : (∀ s ∈ states3, stOk s) ∧ states3 ≠ [] := by
    cases f with
    | false =>
        simp only [Bool.false_eq_true, if_false] at h2
        cases h2
        exact ⟨hok, hne⟩
    | true =>
        simp only [if_true] at h2
        cases st1 with
        | nil => simp at h2
        | cons first rest =>
            dsimp only at h2
            cases he : endsTransOrIf first with
            | false =>
                rw [he] at h2
                simp at h2
            | true =>
                rw [he] at h2
                simp only [if_true] at h2
                have hfirst : stOk first := hok first (by simp)
                cases hcond : (!(decide ((first :: rest).length ≤ 1) && l)) with
                | false =>
                    rw [hcond] at h2
                    simp only [Bool.false_eq_true, if_false, Option.some.injEq] at h2
                    subst h2
                    exact ⟨hok, hne⟩
                | true =>
                    rw [hcond] at h2
                    simp only [if_true, Option.some.injEq] at h2
                    subst h2
                    constructor
                    · intro s hs
                      rcases List.mem_cons.mp hs with rfl | hmem
                      · exact ⟨AHDL.transition none, rfl, rfl⟩
                      · exact hok s hmem
                    · simp
  rcases hstep with ⟨hok3, hne3⟩
  cases l with
  | false =>
      simp only [Bool.false_eq_true, if_false] at h3
      cases h3
      exact ⟨hok3, hne3⟩
  | true =>
      simp only [if_true] at h3
      cases hl3 : states3.getLast? with
      | none =>
          rw [hl3] at h3
          simp at h3
      | some lastSt =>
          rw [hl3] at h3
          dsimp only at h3
          cases hc : lastSt.codes.getLast? with
          | none =>
              rw [hc] at h3
              simp at h3
          | some c =>
              rw [hc] at h3
              cases c with
              | transition t =>
                  dsimp only at h3
                  simp only [Option.some.injEq] at h3
                  subst h3
                  constructor
                  · intro s hs
                    rcases List.mem_append.mp hs with hmem | hmem
                    · exact hok3 s (List.dropLast_subset _ hmem)
                    · rcases List.mem_singleton.mp hmem with rfl
                      refine ⟨AHDL.transition t, ?_, rfl⟩
                      show (lastSt.codes.dropLast ++
                        [AHDL.seq (AHDL.calleeEpilog stgName) 0 1, AHDL.transition t]).getLast? =
                        some (AHDL.transition t)
                      have hsplit : lastSt.codes.dropLast ++
                          [AHDL.seq (AHDL.calleeEpilog stgName) 0 1, AHDL.transition t] =
                          (lastSt.codes.dropLast ++
                            [AHDL.seq (AHDL.calleeEpilog stgName) 0 1]) ++
                            [AHDL.transition t] := by
                        simp
                      rw [hsplit, List.getLast?_concat]
                  · simp
              | avar a b => simp at h3
              | aconst a => simp at h3
              | asym a => simp at h3
              | unop a b => simp at h3
              | binop a b cc => simp at h3
              | ifExp a b cc => simp at h3
              | amove a b => simp at h3
              | subscript a b => simp at h3
              | transitionIf a b => simp at h3
              | metaWait a b => simp at h3
              | seq a b cc => simp at h3
              | ioRead a => simp at h3
              | ioWrite a b => simp at h3
              | pipelineGuard a b => simp at h3
              | aif a b => simp at h3
              | proccall a b => simp at h3
              | inline a => simp at h3
              | calleeProlog a => simp at h3
              | calleeEpilog a => simp at h3
              | anop a => simp at h3

/-- C7 counterexample: for a testbench scope's last main block, the
appended FINISH state's code list ends in the inline `$finish()` call —
not in a transition, conditional transition or wait — so not every
produced state has an admissible terminal; and for a worker scope's empty
last main block, two states are produced, not exactly one. -/
theorem stg_state_terminals_counterexample :
    ((buildStatesForBlock "tb" "tb_b1"
        [(0, [AHDL.amove (AHDL.avar ⟨"x", 8, ["reg"]⟩ Ctx.store) (AHDL.aconst 1)])]
        none true true true SKind.testbench).map
      (fun sts => sts.map (fun s => s.codes.map endsCtrl))) =
      some [[false, true], [false, false]] ∧
    ((buildStatesForBlock "w" "w_b2" [] none true false true SKind.worker).map
      (fun sts => sts.length)) = some 2 :=
  ⟨rfl, rfl⟩

/-- C7 (amended): whenever `_build_states_for_block` succeeds, the
produced state list is non-empty; every produced state's code list ends
in a transition, conditional transition or wait, except the FINISH state
appended for a testbench scope's last main block, whose code list is the
`$display`/`$finish` inline pair; and a non-main block with no scheduled
items and no trailing jump yields exactly one state carrying only a
fall-through transition. -/
theorem stg_state_terminals_amended (stgName pre : String)
    (groups : List (Nat × List AHDL)) (blkJump : Option Nat)
    (isMain isFirst isLast : Bool) (kind : SKind) (sts : List St)
    (h : buildStatesForBlock stgName pre groups blkJump isMain isFirst isLast kind =
      some sts) :
    sts ≠ [] ∧
    (∀ s ∈ sts, stOk s ∨
      (isMain = true ∧ isLast = true ∧ kind = SKind.testbench ∧ s.codes = tbFinishCodes)) ∧
    (groups = [] → blkJump = none → isMain = false →
      sts = [⟨pre ++ "_S0", 1, [AHDL.transition none]⟩]) := by
  unfold buildStatesForBlock at h
  rcases Option.bind_eq_some.mp h with ⟨base, hbase, h1⟩
  rcases Option.bind_eq_some.mp h1 with ⟨states1, hjump, h2⟩
  have hok0 : ∀ s ∈ (if base.isEmpty then
      [(⟨pre ++ "_S0", 1, [AHDL.transition none]⟩ : St)] else base), stOk s := by
    cases hbe : base.isEmpty with
    | true =>
        simp only [if_true]
        intro s hs
        rcases List.mem_singleton.mp hs with rfl
        exact ⟨AHDL.transition none, rfl, rfl⟩
    | false =>
        simp only [Bool.false_eq_true, if_false]
        exact groupStates_ok pre groups base hbase
  have hne0 : (if base.isEmpty then
      [(⟨pre ++ "_S0", 1, [AHDL.transition none]⟩ : St)] else base) ≠ [] := by
    cases hbe : base.isEmpty with
    | true => simp
    | false =>
        simp only [Bool.false_eq_true, if_false]
        intro hcon
        rw [hcon] at hbe
        simp at hbe
  obtain ⟨hok1, hne1⟩ := jumpStage_ok blkJump _ states1 hjump hok0 hne0
  cases isMain with
  | false =>
      simp only [Bool.not_false, if_true, Option.some.injEq] at h2
      subst h2
      refine ⟨hne1, ?_, ?_⟩
      · intro s hs
        exact Or.inl (hok1 s hs)
      · intro hg hb _
        subst hg
        subst hb
        have hbase2 : base = [] := by
          unfold groupStates at hbase
          simpa using hbase.symm
        subst hbase2
        simp only [List.isEmpty_nil, if_true] at hjump
        unfold jumpStage at hjump
        simpa using hjump.symm
  | true =>
      simp only [Bool.not_true, Bool.false_eq_true, if_false] at h2
      cases hkb : (kind == SKind.worker || kind == SKind.testbench) with
      | true =>
          rw [hkb] at h2
          simp only [if_true] at h2
          obtain ⟨hprop, hne2⟩ := wtbStage_props pre kind isFirst isLast states1 sts h2 hok1 hne1
          refine ⟨hne2, ?_, ?_⟩
          · intro s hs
            rcases hprop s hs with hok | ⟨hl, hnw, hcodes⟩
            · exact Or.inl hok
            · right
              refine ⟨rfl, hl, ?_, hcodes⟩
              rcases (by simpa using hkb :
                kind = SKind.worker ∨ kind = SKind.testbench) with hk | hk
              · exact absurd (by simpa using hk) hnw
              · simpa using hk
          · intro _ _ hcon
            simp at hcon
      | false =>
          rw [hkb] at h2
          simp only [Bool.false_eq_true, if_false] at h2
          obtain ⟨hprop, hne2⟩ :=
            ordinaryStage_props stgName pre isFirst isLast states1 sts h2 hok1 hne1
          refine ⟨hne2, ?_, ?_⟩
          · intro s hs
            exact Or.inl (hprop s hs)
          · intro _ _ hcon
            simp at hcon

/-- Witness for C7 (amended) on a concrete non-main empty block. -/
theorem stg_state_terminals_witness :
    buildStatesForBlock "f" "f_b0" [] none false false false SKind.other =
      some [⟨"f_b0_S0", 1, [AHDL.transition none]⟩] ∧
    ([(⟨"f_b0_S0", 1, [AHDL.transition none]⟩ : St)] : List St) ≠ [] :=
  ⟨rfl,
    (stg_state_terminals_amended "f" "f_b0" [] none false false false SKind.other _ rfl).1⟩

/-- Is a code an `AHDL_META_WAIT`? -/
def isMetaWaitB : AHDL → Bool
  | AHDL.metaWait _ _ => true
  | _ => false

/-- One conditional-transition branch of `resolve_transition` (stg.py
lines 52-59): each branch must be a single `AHDL_TRANSITION` whose target
is still a block reference, resolved through `blk2states`. -/
def resolveBranch (b2s : Nat → Option Nat) (codes : List AHDL) : Option (List AHDL) :=
  match codes with
  | [AHDL.transition (some (Tgt.tblock b))] =>
      match b2s b with
      | some j => some [AHDL.transition (some (Tgt.tstate j))]
      | none => none
  | _ => none

/-- `State.resolve_transition` (stg.py lines 43-74) on a state whose code
list carries no `AHDL_META_WAIT` (the wait rewriting moves the transition
into the wait construct and is outside the claims settled here; states
with waits map to `none`): the last code's pending transition is pointed
at `next` (a state index), block targets are resolved through
`blk2states`, and a non-transition terminal leaves the state unchanged. -/
def resolveState (b2s : Nat → Option Nat) (next : Nat) (s : St) : Option St :=
  if s.codes.any isMetaWaitB then none
  else
    match s.codes.getLast? with
    | some (AHDL.transition none) =>
        some { s with codes :=
          s.codes.dropLast ++ [AHDL.transition (some (Tgt.tstate next))] }
    | some (AHDL.transition (some (Tgt.tblock b))) =>
        match b2s b with
        | some j =>
            some { s with codes :=
              s.codes.dropLast ++ [AHDL.transition (some (Tgt.tstate j))] }
        | none => none
    | some (AHDL.transition (some (Tgt.tstate _))) => none
    | some (AHDL.transitionIf conds cls) =>
        match cls.mapM (resolveBranch b2s) with
        | some cls2 =>
            some { s with codes := s.codes.dropLast ++ [AHDL.transitionIf conds cls2] }
        | none => none
    | _ => some s

/-- The `functools.reduce(lambda s1, s2: s1.resolve_transition(s2), states)`
chain of `STGBuilder.process` (stg.py lines 267, 273): every state except
the last is resolved against its successor; `i` is the index of the list
head in the whole state list. -/
def resolveChain (b2s : Nat → Option Nat) : List St → Nat → Option (List St)
  | [], _ => some []
  | [s], _ => some [s]
  | s :: s2 :: rest, i =>
      (resolveState b2s (i + 1) s).bind (fun s1 =>
        (resolveChain b2s (s2 :: rest) (i + 1)).bind (fun tail =>
          some (s1 :: tail)))

/-- The transition resolution of `STGBuilder.process` (stg.py lines
266-274) for one STG's state list: the pairwise chain, then the final
call on `states[-1]` — against `states[-1]` itself when `finalSelf` (the
worker/testbench main case), else against `states[0]` (the ordinary main
case and every non-main STG). -/
def processResolve (finalSelf : Bool) (b2s : Nat → Option Nat) (states : List St) :
    Option (List St) :=
  (resolveChain b2s states 0).bind (fun m1 =>
    match m1.getLast? with
    | none => none
    | some lastSt =>
        (resolveState b2s (if finalSelf then m1.length - 1 else 0) lastSt).map
          (fun lastSt2 => m1.dropLast ++ [lastSt2]))

/-- C8 counterexample: for a worker (or testbench) scope, the main STG's
last state's pending transition is resolved to the last state itself —
state index 1 of a two-state machine — not to the machine's first (init)
state, index 0, as the claim states. -/
theorem resolve_loopback_counterexample :
    ((processResolve true (fun _ => none)
        [⟨"s0", 0, [AHDL.transition none]⟩, ⟨"s1", 1, [AHDL.transition none]⟩]).map
      (fun sts => sts.map (fun s => s.codes))) =
      some [[AHDL.transition (some (Tgt.tstate 1))],
            [AHDL.transition (some (Tgt.tstate 1))]] ∧
    Tgt.tstate 1 ≠ Tgt.tstate 0 :=
  ⟨rfl, by decide⟩

/-- Helper: resolving a pending, wait-free state always succeeds and
points its terminal at the given index. -/
theorem resolveState_pending (b2s : Nat → Option Nat) (k : Nat) (s : St)
    (hp : s.codes.getLast? = some (AHDL.transition none))
    (hw : s.codes.any isMetaWaitB = false) :
    resolveState b2s k s =
      some { s with codes := s.codes.dropLast ++ [AHDL.transition (some (Tgt.tstate k))] } := by
  unfold resolveState
  rw [hw, hp]
  simp

/-- Helper: the pairwise chain succeeds on pending wait-free states,
preserves the length and leaves the final state untouched. -/
theorem resolveChain_props (b2s : Nat → Option Nat) (states : List St) (i : Nat)
    (hp : ∀ s ∈ states, s.codes.getLast? = some (AHDL.transition none) ∧
      s.codes.any isMetaWaitB = false) :
    ∃ m1, resolveChain b2s states i = some m1 ∧ m1.length = states.length ∧
      m1.getLast? = states.getLast? := by
  induction states generalizing i with
  | nil => exact ⟨[], rfl, rfl, rfl⟩
  | cons s rest ih =>
      cases rest with
      | nil => exact ⟨[s], rfl, rfl, rfl⟩
      | cons s2 rest2 =>
          obtain ⟨hps, hws⟩ := hp s (by simp)
          obtain ⟨tail, htail, hlen, hlast⟩ := ih (i + 1)
            (fun x hx => hp x (List.mem_cons_of_mem _ hx))
          refine ⟨{ s with codes :=
              s.codes.dropLast ++ [AHDL.transition (some (Tgt.tstate (i + 1)))] } :: tail,
            ?_, ?_, ?_⟩
          · unfold resolveChain
            rw [resolveState_pending b2s (i + 1) s hps hws]
            rw [htail]
            rfl
          · simp [hlen]
          · have htne : tail ≠ [] := by
              intro hcon
              rw [hcon] at hlen
              simp at hlen
            rcases List.exists_cons_of_ne_nil htne with ⟨t0, ts, rfl⟩
            rw [List.getLast?_cons_cons]
            rw [hlast]
            rw [List.getLast?_cons_cons]

/-- C8 (amended): after the resolution pass of `STGBuilder.process` on a
non-empty state list of pending, wait-free states, the last state's
pending transition targets the last state itself (`states[-1]`, a
self-loop on the finish state) for worker- and testbench-style scopes'
main STG, and targets the first state (index 0) otherwise — both for the
ordinary main STG (finish loops back to init) and for every non-main STG
(which resolves to its own first state). -/
theorem resolve_loopback_amended (finalSelf : Bool) (b2s : Nat → Option Nat)
    (states : List St) (hne : states ≠ [])
    (hp : ∀ s ∈ states, s.codes.getLast? = some (AHDL.transition none) ∧
      s.codes.any isMetaWaitB = false) :
    ∃ out, processResolve finalSelf b2s states = some out ∧
      out.length = states.length ∧
      ∃ lastSt, out.getLast? = some lastSt ∧
        lastSt.codes.getLast? =
          some (AHDL.transition (some (Tgt.tstate
            (if finalSelf then states.length - 1 else 0)))) := by
  obtain ⟨m1, hm1, hlen, hlast⟩ := resolveChain_props b2s states 0 hp
  have hm1ne : m1 ≠ [] := by
    intro hcon
    rw [hcon] at hlen
    exact hne (List.length_eq_zero.mp hlen.symm)
  rcases List.exists_cons_of_ne_nil hne with ⟨s0, srest, rfl⟩
  have hlastOrig : ∃ lastOrig, m1.getLast? = some lastOrig ∧ lastOrig ∈ s0 :: srest := by
    rw [hlast]
    exact ⟨(s0 :: srest).getLast (by simp), List.getLast?_eq_getLast _ _, List.getLast_mem _⟩
  rcases hlastOrig with ⟨lastOrig, hlo, hmem⟩
  obtain ⟨hplo, hwlo⟩ := hp lastOrig hmem
  refine ⟨m1.dropLast ++ [{ lastOrig with codes := lastOrig.codes.dropLast ++
      [AHDL.transition (some (Tgt.tstate
        (if finalSelf then (s0 :: srest).length - 1 else 0)))] }], ?_, ?_, ?_⟩
  · unfold processResolve
    rw [hm1]
    simp only [Option.some_bind]
    rw [hlo]
    dsimp only
    rw [hlen]
    rw [resolveState_pending b2s _ lastOrig hplo hwlo]
    rfl
  · rw [List.length_append]
    rcases List.exists_cons_of_ne_nil hm1ne with ⟨m0, ms, rfl⟩
    simp at hlen ⊢
    omega
  · refine ⟨_, List.getLast?_concat _, ?_⟩
    simp [List.getLast?_concat]

/-- Witness for C8 (amended): a single-state ordinary main STG resolves
its finish transition back to state 0. -/
theorem resolve_loopback_witness :
    ∃ out, processResolve false (fun _ => none) [⟨"s0", 1, [AHDL.transition none]⟩] =
      some out ∧
      out.length = 1 ∧
      ∃ lastSt, out.getLast? = some lastSt ∧
        lastSt.codes.getLast? = some (AHDL.transition (some (Tgt.tstate 0))) := by
  have h := resolve_loopback_amended false (fun _ => none)
    [⟨"s0", 1, [AHDL.transition none]⟩] (by simp)
    (by
      intro s hs
      rcases List.mem_singleton.mp hs with rfl
      exact ⟨rfl, rfl⟩)
  simpa using h

end Stg

namespace Ssa

/-- A phi argument as pruning sees it: the argument symbol (symbols are
embedded as numeric ids; python compares them with `is`, i.e. object
identity) and the predecessor block reference. -/
structure Arg where
  sym : Nat
  blk : Nat
  deriving DecidableEq, Repr

/-- An IR statement as far as `_remove_useless_phi` / `_cleanup_phi` are
concerned: a `PHI` with destination symbol and argument list, or any
other statement with its list of used symbols.  Statements carry a
numeric id standing for python object identity. -/
inductive Stm where
  | phi (id : Nat) (dest : Nat) (args : List Arg)
  | plain (id : Nat) (uses : List Nat)
  deriving DecidableEq, Repr

/-- A scope's block list, each block an ordered statement list. -/
abbrev Scope := List (List Stm)

/-- The statement's identity. -/
def stmId : Stm → Nat
  | Stm.phi i _ _ => i
  | Stm.plain i _ => i

/-- Is the statement a `PHI` (`SSAFormTransformer._get_phis`)? -/
def isPhi : Stm → Bool
  | Stm.phi _ _ _ => true
  | Stm.plain _ _ => false

/-- All statements of a scope in block order. -/
def stms (s : Scope) : List Stm := s.flatten

/-- The phis of a scope in block order (the initial worklist of
`_remove_useless_phi`). -/
def phisOf (s : Scope) : List Stm := (stms s).filter isPhi

/-- All statement ids of a scope. -/
def stmIds (s : Scope) : List Nat := (stms s).map stmId

/-- `get_sym_if_having_only_1` (ssa.py lines 177-182): the non-self
argument symbols, when non-empty and all identical, collapse to that one
symbol; an empty non-self list (all arguments self-references) yields
nothing, as does a list with two distinct symbols. -/
def collapseSym (dest : Nat) (args : List Arg) : Option Nat :=
  match (args.filter (fun a => a.sym ≠ dest)).map Arg.sym with
  | [] => none
  | s0 :: rest => if rest.all (fun s => s == s0) then some s0 else none

/-- Find the (first) phi with the given identity, returning its current
destination and argument list (the popped python object's live state). -/
def findPhi (s : Scope) (i : Nat) : Option (Nat × List Arg) :=
  match (stms s).find? (fun st => isPhi st && stmId st == i) with
  | some (Stm.phi _ d args) => some (d, args)
  | _ => none

/-- `phi.block.stms.remove(phi)`: drop the statement with the popped
identity (statement identities are unique in any reachable scope, which
the theorems assume via `Nodup`). -/
def removeStm (s : Scope) (i : Nat) : Scope :=
  s.map (fun b => b.filter (fun st => stmId st ≠ i))

/-- Replace symbol `old` by `new` inside one statement's uses (phi
arguments and plain uses; destinations are definitions, not uses). -/
def replaceInStm (old new : Nat) : Stm → Stm
  | Stm.phi i d args =>
      Stm.phi i d (args.map (fun a => if a.sym == old then ⟨new, a.blk⟩ else a))
  | Stm.plain i uses =>
      Stm.plain i (uses.map (fun u => if u == old then new else u))

/-- Does the statement use symbol `old`? -/
def stmUsesSym (old : Nat) : Stm → Bool
  | Stm.phi _ _ args => args.any (fun a => a.sym == old)
  | Stm.plain _ uses => uses.any (fun u => u == old)

/-- Modelled from the spec: `VarReplacer.replace_uses` (varreplacer.py is
not under src/) — "replace and remove any phi whose (non-self) argument
symbols are all identical with direct uses of that one symbol" — replaces
every use of the collapsed phi's destination symbol in the scope with the
collapse target, returning the scope and the identities of the changed
phi statements (which ssa.py appends back onto the worklist). -/
def replaceUses (old new : Nat) (s : Scope) : Scope × List Nat :=
  (s.map (fun b => b.map (replaceInStm old new)),
   ((stms s).filter (fun st => isPhi st && stmUsesSym old st)).map stmId)

/-- The number of phis present in a scope. -/
def phiCount (s : Scope) : Nat := (phisOf s).length

/-- Helper: double filtering drops strictly below a single filter when
some element satisfies the kept predicate but not the inner one. -/
theorem length_filter_filter_lt {α : Type} (p q : α → Bool) (l : List α) (x : α)
    (hx : x ∈ l) (hp : p x = true) (hq : q x = false) :
    ((l.filter q).filter p).length < (l.filter p).length := by
  induction l with
  | nil => cases hx
  | cons a t ih =>
      rcases List.mem_cons.mp hx with rfl | hmem
      · rw [List.filter_cons_of_neg (by simp [hq])]
        rw [List.filter_cons_of_pos (by simp [hp])]
        have hle : ((t.filter q).filter p).length ≤ (t.filter p).length :=
          ((show (t.filter q).Sublist t from List.filter_sublist t).filter p).length_le
        simpa using Nat.lt_succ_of_le hle
      · cases hqa : q a with
        | false =>
            rw [List.filter_cons_of_neg (by simp [hqa])]
            cases hpa : p a with
            | false =>
                rw [List.filter_cons_of_neg (by simp [hpa])]
                exact ih hmem
            | true =>
                rw [List.filter_cons_of_pos (by simp [hpa])]
                exact Nat.lt_succ_of_lt (ih hmem)
        | true =>
            rw [List.filter_cons_of_pos (by simp [hqa])]
            cases hpa : p a with
            | false =>
                rw [List.filter_cons_of_neg (by simp [hpa]),
                  List.filter_cons_of_neg (by simp [hpa])]
                exact ih hmem
            | true =>
                rw [List.filter_cons_of_pos (by simp [hpa]),
                  List.filter_cons_of_pos (by simp [hpa])]
                simpa using ih hmem

/-- Helper: removing a found phi strictly decreases the phi count. -/
theorem phiCount_removeStm_lt (s : Scope) (i : Nat) (d : Nat) (args : List Arg)
    (h : findPhi s i = some (d, args)) : phiCount (removeStm s i) < phiCount s := by
  have hfound : ∃ st ∈ stms s, (isPhi st && stmId st == i) = true := by
    unfold findPhi at h
    cases hf : (stms s).find? (fun st => isPhi st && stmId st == i) with
    | none =>
        rw [hf] at h
        simp at h
    | some st =>
        have h1 := List.mem_of_find?_eq_some hf
        have h2 := List.find?_some hf
        exact ⟨st, h1, h2⟩
  rcases hfound with ⟨st, hmem, hprop⟩
  have hsplit : isPhi st = true ∧ (stmId st == i) = true := by simpa using hprop
  rcases hsplit with ⟨hphi, hid⟩
  have hid2 : stmId st = i := by simpa using hid
  unfold phiCount phisOf removeStm stms
  rw [← List.filter_flatten]
  exact length_filter_filter_lt isPhi (fun st => stmId st ≠ i) s.flatten st hmem hphi
    (by simp [hid2])

/-- Helper: replacement preserves the phi count. -/
theorem phiCount_replaceUses (old new : Nat) (s : Scope) :
    phiCount (replaceUses old new s).1 = phiCount s := by
  unfold phiCount phisOf replaceUses stms
  simp only
  rw [← List.map_flatten]
  have hpres : ∀ st, isPhi (replaceInStm old new st) = isPhi st := by
    intro st
    cases st <;> rfl
  induction s.flatten with
  | nil => rfl
  | cons a t ih =>
      rw [List.map_cons]
      cases hpa : isPhi a with
      | false =>
          rw [List.filter_cons_of_neg (by simp [hpres, hpa]),
            List.filter_cons_of_neg (by simp [hpa])]
          exact ih
      | true =>
          rw [List.filter_cons_of_pos (by simp [hpres, hpa]),
            List.filter_cons_of_pos (by simp [hpa])]
          simpa using ih

/-- The worklist loop of `SSAFormTransformer._remove_useless_phi`
(ssa.py lines 183-202): pop a phi; a phi with no arguments is removed; a
phi whose non-self argument symbols all coincide is removed and its uses
replaced by that symbol, re-enqueueing every phi the replacement changed;
any other phi is kept.  A popped identity no longer present is skipped: a
phi removed by collapse has had every use of its destination replaced, so
re-running python's replacement on it changes nothing. -/
def pruneGo (s : Scope) (wl : List Nat) : Scope :=
  match wl with
  | [] => s
  | i :: rest =>
      match hf : findPhi s i with
      | none => pruneGo s rest
      | some (d, args) =>
          if args.isEmpty then pruneGo (removeStm s i) rest
          else
            match collapseSym d args with
            | none => pruneGo s rest
            | some t =>
                let pr := replaceUses d t (removeStm s i)
                pruneGo pr.1 (rest ++ pr.2)
termination_by (phiCount s, wl.length)
decreasing_by
  · apply Prod.Lex.right
    simp
  · apply Prod.Lex.left
    exact phiCount_removeStm_lt _ _ _ _ hf
  · apply Prod.Lex.right
    simp
  · apply Prod.Lex.left
    rw [phiCount_replaceUses]
    exact phiCount_removeStm_lt _ _ _ _ hf

/-- `SSAFormTransformer._remove_useless_phi` (ssa.py lines 172-202): the
worklist is seeded with every phi in block order. -/
def prune (s : Scope) : Scope := pruneGo s ((phisOf s).map stmId)

/-- `SSAFormTransformer._cleanup_phi` (ssa.py lines 204-212): strip from
every phi the arguments that refer back to the phi's own destination
symbol. -/
def cleanupPhi (s : Scope) : Scope :=
  s.map (fun b => b.map (fun st =>
    match st with
    | Stm.phi i d args => Stm.phi i d (args.filter (fun a => a.sym ≠ d))
    | p => p))

/-- The state of a phi that pruning can no longer touch: non-empty
arguments and no collapse symbol. -/
def phiGoodStm : Stm → Prop
  | Stm.phi _ d args => args ≠ [] ∧ collapseSym d args = none
  | Stm.plain _ _ => True

/-- Every phi of the scope is beyond pruning's reach. -/
def goodScope (s : Scope) : Prop := ∀ st ∈ stms s, phiGoodStm st

/-- Helper: a found phi is a member statement. -/
theorem findPhi_mem (s : Scope) (i d : Nat) (args : List Arg)
    (h : findPhi s i = some (d, args)) : Stm.phi i d args ∈ stms s := by
  unfold findPhi at h
  cases hf : (stms s).find? (fun st => isPhi st && stmId st == i) with
  | none =>
      rw [hf] at h
      simp at h
  | some st =>
      rw [hf] at h
      have hmem := List.mem_of_find?_eq_some hf
      have hprop := List.find?_some hf
      cases st with
      | plain j uses => simp at h
      | phi j dd aa =>
          simp only [Option.some.injEq, Prod.mk.injEq] at h
          have hid : j = i := by
            have : (stmId (Stm.phi j dd aa) == i) = true := by
              have hsplit : isPhi (Stm.phi j dd aa) = true ∧
                  (stmId (Stm.phi j dd aa) == i) = true := by simpa using hprop
              exact hsplit.2
            simpa [stmId] using this
          rw [← h.1, ← h.2, ← hid]
          exact hmem

/-- Helper: when no phi with the popped identity exists, no phi of the
scope carries it. -/
theorem findPhi_none (s : Scope) (i : Nat) (h : findPhi s i = none) :
    ∀ st ∈ phisOf s, stmId st ≠ i := by
  intro st hst hid
  unfold phisOf at hst
  have hmem := List.mem_of_mem_filter hst
  have hphi := List.of_mem_filter hst
  unfold findPhi at h
  cases hf : (stms s).find? (fun st => isPhi st && stmId st == i) with
  | none =>
      have := List.find?_eq_none.mp hf st hmem
      simp [hphi, hid] at this
  | some st2 =>
      rw [hf] at h
      have hprop := List.find?_some hf
      cases st2 with
      | phi j dd aa => simp at h
      | plain j uses => simp [isPhi] at hprop

/-- Helper: with unique statement identities, the phi found under an
identity is the only phi statement carrying it. -/
theorem findPhi_unique (s : Scope) (i d : Nat) (args : List Arg)
    (hn : (stmIds s).Nodup) (h : findPhi s i = some (d, args))
    (st : Stm) (hmem : st ∈ stms s) (hid : stmId st = i) :
    st = Stm.phi i d args := by
  have hfm := findPhi_mem s i d args h
  have hinj := List.inj_on_of_nodup_map (by simpa [stmIds] using hn)
  exact hinj hmem hfm (by simpa [stmId] using hid)

/-- Unfolding: an absent identity is skipped. -/
theorem pruneGo_cons_none (s : Scope) (i : Nat) (rest : List Nat)
    (hf : findPhi s i = none) : pruneGo s (i :: rest) = pruneGo s rest := by
  rw [pruneGo]
  split
  · rfl
  · next d args hf2 => exact Option.noConfusion (hf2.symm.trans hf)

/-- Unfolding: a phi with no arguments is removed. -/
theorem pruneGo_cons_empty (s : Scope) (i : Nat) (rest : List Nat) (d : Nat)
    (args : List Arg) (hf : findPhi s i = some (d, args)) (he : args = []) :
    pruneGo s (i :: rest) = pruneGo (removeStm s i) rest := by
  rw [pruneGo]
  split
  · next hf2 => exact Option.noConfusion (hf2.symm.trans hf)
  · next d2 args2 hf2 =>
      cases hf2.symm.trans hf
      rw [if_pos (by simp [he])]

/-- Unfolding: a phi that neither is empty nor collapses is kept. -/
theorem pruneGo_cons_keep (s : Scope) (i : Nat) (rest : List Nat) (d : Nat)
    (args : List Arg) (hf : findPhi s i = some (d, args)) (hne : args ≠ [])
    (hcol : collapseSym d args = none) : pruneGo s (i :: rest) = pruneGo s rest := by
  rw [pruneGo]
  split
  · next hf2 => exact Option.noConfusion (hf2.symm.trans hf)
  · next d2 args2 hf2 =>
      cases hf2.symm.trans hf
      rw [if_neg (by simp [hne])]
      split
      · rfl
      · next t hcol2 => exact Option.noConfusion (hcol2.symm.trans hcol)

/-- Unfolding: a collapsing phi is removed, its uses replaced, and the
changed phis re-enqueued. -/
theorem pruneGo_cons_collapse (s : Scope) (i : Nat) (rest : List Nat) (d : Nat)
    (args : List Arg) (t : Nat) (hf : findPhi s i = some (d, args)) (hne : args ≠ [])
    (hcol : collapseSym d args = some t) :
    pruneGo s (i :: rest) =
      pruneGo (replaceUses d t (removeStm s i)).1
        (rest ++ (replaceUses d t (removeStm s i)).2) := by
  rw [pruneGo]
  split
  · next hf2 => exact Option.noConfusion (hf2.symm.trans hf)
  · next d2 args2 hf2 =>
      cases hf2.symm.trans hf
      rw [if_neg (by simp [hne])]
      split
      · next hcol2 => exact Option.noConfusion (hcol2.symm.trans hcol)
      · next t2 hcol2 =>
          cases hcol2.symm.trans hcol
          rfl

/-- Helper: a good scope is a fixed point of the pruning loop — popping
any worklist over it removes nothing and replaces nothing. -/
theorem pruneGo_fixed (s : Scope) (hg : goodScope s) (wl : List Nat) :
    pruneGo s wl = s := by
  induction wl with
  | nil => rw [pruneGo]
  | cons i rest ih =>
      cases hf : findPhi s i with
      | none => rw [pruneGo_cons_none s i rest hf, ih]
      | some pr =>
          rcases pr with ⟨d, args⟩
          have hgood : phiGoodStm (Stm.phi i d args) := hg _ (findPhi_mem s i d args hf)
          have hgood2 : args ≠ [] ∧ collapseSym d args = none := hgood
          rw [pruneGo_cons_keep s i rest d args hf hgood2.1 hgood2.2, ih]

/-- Helper: statements surviving a removal. -/
theorem stms_removeStm (s : Scope) (i : Nat) :
    stms (removeStm s i) = (stms s).filter (fun st => stmId st ≠ i) := by
  unfold stms removeStm
  exact (List.filter_flatten _ s).symm

/-- Helper: a phi surviving a removal was already present and does not
carry the removed identity. -/
theorem mem_phisOf_removeStm (s : Scope) (i : Nat) (st : Stm)
    (h : st ∈ phisOf (removeStm s i)) : st ∈ phisOf s ∧ stmId st ≠ i := by
  unfold phisOf at h ⊢
  rw [stms_removeStm] at h
  have hmem := List.mem_of_mem_filter h
  have hphi := List.of_mem_filter h
  have hmem2 := List.mem_of_mem_filter hmem
  have hne := List.of_mem_filter hmem
  refine ⟨List.mem_filter.mpr ⟨hmem2, hphi⟩, ?_⟩
  simpa using hne

/-- Helper: removal keeps identities unique. -/
theorem nodup_removeStm (s : Scope) (i : Nat) (hn : (stmIds s).Nodup) :
    (stmIds (removeStm s i)).Nodup := by
  unfold stmIds
  rw [stms_removeStm]
  unfold stmIds at hn
  exact ((List.filter_sublist (stms s)).map stmId).nodup hn

/-- Helper: statements after replacement. -/
theorem stms_replaceUses (o n : Nat) (s : Scope) :
    stms ((replaceUses o n s).1) = (stms s).map (replaceInStm o n) := by
  unfold stms replaceUses
  exact (List.map_flatten _ s).symm

/-- Helper: replacement does not change a statement's identity. -/
theorem stmId_replaceInStm (o n : Nat) (st : Stm) :
    stmId (replaceInStm o n st) = stmId st := by
  cases st <;> rfl

/-- Helper: replacement does not change whether a statement is a phi. -/
theorem isPhi_replaceInStm (o n : Nat) (st : Stm) :
    isPhi (replaceInStm o n st) = isPhi st := by
  cases st <;> rfl

/-- Helper: replacement keeps identities unique (it keeps them equal). -/
theorem nodup_replaceUses (o n : Nat) (s : Scope) (hn : (stmIds s).Nodup) :
    (stmIds ((replaceUses o n s).1)).Nodup := by
  unfold stmIds
  rw [stms_replaceUses, List.map_map]
  have hcomp : (stmId ∘ replaceInStm o n) = stmId := by
    funext st
    exact stmId_replaceInStm o n st
  rw [hcomp]
  exact hn

/-- Helper: a statement not using the replaced symbol is unchanged. -/
theorem replaceInStm_eq_of_not_uses (o n : Nat) (st : Stm)
    (h : stmUsesSym o st = false) : replaceInStm o n st = st := by
  cases st with
  | phi i d args =>
      unfold replaceInStm
      dsimp only
      congr 1
      unfold stmUsesSym at h
      dsimp only at h
      conv_rhs => rw [← List.map_id args]
      apply List.map_congr_left
      intro a ha
      have : (a.sym == o) = false := by
        cases hbe : (a.sym == o) with
        | false => rfl
        | true =>
            exfalso
            have : args.any (fun a => a.sym == o) = true := List.any_eq_true.mpr ⟨a, ha, hbe⟩
            rw [this] at h
            cases h
      simp [this]
  | plain i uses =>
      unfold replaceInStm
      dsimp only
      congr 1
      unfold stmUsesSym at h
      dsimp only at h
      conv_rhs => rw [← List.map_id uses]
      apply List.map_congr_left
      intro u hu
      have : (u == o) = false := by
        cases hbe : (u == o) with
        | false => rfl
        | true =>
            exfalso
            have : uses.any (fun u => u == o) = true := List.any_eq_true.mpr ⟨u, hu, hbe⟩
            rw [this] at h
            cases h
      simp [this]

/-- Helper: a phi using the replaced symbol is among the identities the
replacement hands back to the worklist. -/
theorem mem_changed (o n : Nat) (s : Scope) (st : Stm) (hmem : st ∈ stms s)
    (hphi : isPhi st = true) (huses : stmUsesSym o st = true) :
    stmId st ∈ (replaceUses o n s).2 := by
  unfold replaceUses
  simp only
  exact List.mem_map.mpr ⟨st, List.mem_filter.mpr ⟨hmem, by simp [hphi, huses]⟩, rfl⟩

/-- Helper: the worklist invariant — every phi is either beyond pruning's
reach or still scheduled — yields a good scope at the loop's fixed point. -/
theorem pruneGo_good (s : Scope) (wl : List Nat) :
    (stmIds s).Nodup → (∀ st ∈ phisOf s, phiGoodStm st ∨ stmId st ∈ wl) →
    goodScope (pruneGo s wl) := by
  induction s, wl using pruneGo.induct with
  | case1 s =>
      intro hn hinv
      rw [pruneGo]
      intro st hst
      cases st with
      | plain j uses => trivial
      | phi j dd aa =>
          have hp : Stm.phi j dd aa ∈ phisOf s := by
            unfold phisOf
            exact List.mem_filter.mpr ⟨hst, rfl⟩
          rcases hinv _ hp with hg | hmem
          · exact hg
          · simp at hmem
  | case2 s i rest hf ih =>
      intro hn hinv
      rw [pruneGo_cons_none s i rest hf]
      apply ih hn
      intro st hst
      rcases hinv st hst with hg | hmem
      · exact Or.inl hg
      · rcases List.mem_cons.mp hmem with heq | hr
        · exact absurd heq (findPhi_none s i hf st hst)
        · exact Or.inr hr
  | case3 s i rest d args hf hempty ih =>
      intro hn hinv
      rw [pruneGo_cons_empty s i rest d args hf (by simpa using hempty)]
      apply ih (nodup_removeStm s i hn)
      intro st hst
      obtain ⟨hst0, hne⟩ := mem_phisOf_removeStm s i st hst
      rcases hinv st hst0 with hg | hmem
      · exact Or.inl hg
      · rcases List.mem_cons.mp hmem with heq | hr
        · exact absurd heq hne
        · exact Or.inr hr
  | case4 s i rest d args hf hnempty hcol ih =>
      intro hn hinv
      rw [pruneGo_cons_keep s i rest d args hf (by simpa using hnempty) hcol]
      apply ih hn
      intro st hst
      rcases hinv st hst with hg | hmem
      · exact Or.inl hg
      · rcases List.mem_cons.mp hmem with heq | hr
        · left
          have hst2 := findPhi_unique s i d args hn hf st (List.mem_of_mem_filter hst) heq
          rw [hst2]
          exact ⟨by simpa using hnempty, hcol⟩
        · exact Or.inr hr
  | case5 s i rest d args hf hnempty t hcol pr ih =>
      intro hn hinv
      rw [pruneGo_cons_collapse s i rest d args t hf (by simpa using hnempty) hcol]
      apply ih (nodup_replaceUses d t (removeStm s i) (nodup_removeStm s i hn))
      intro st2 hst2
      have hmem2 := List.mem_of_mem_filter hst2
      have hphi2 := List.of_mem_filter hst2
      rw [stms_replaceUses] at hmem2
      rcases List.mem_map.mp hmem2 with ⟨st1, hst1, hrepl⟩
      have hphi1 : isPhi st1 = true := by
        rw [← hrepl] at hphi2
        rw [isPhi_replaceInStm] at hphi2
        exact hphi2
      cases hu : stmUsesSym d st1 with
      | true =>
          right
          apply List.mem_append_right
          rw [← hrepl, stmId_replaceInStm]
          exact mem_changed d t (removeStm s i) st1 hst1 hphi1 hu
      | false =>
          have heq1 : st2 = st1 := by
            rw [← hrepl, replaceInStm_eq_of_not_uses d t st1 hu]
          subst heq1
          have hp1 : st2 ∈ phisOf (removeStm s i) := by
            unfold phisOf
            exact List.mem_filter.mpr ⟨hst1, hphi1⟩
          obtain ⟨hp0, hne⟩ := mem_phisOf_removeStm s i st2 hp1
          rcases hinv st2 hp0 with hg | hmem
          · exact Or.inl hg
          · rcases List.mem_cons.mp hmem with heq | hr
            · exact absurd heq hne
            · exact Or.inr (List.mem_append_left _ hr)

/-- Helper: after `_remove_useless_phi`, every phi of the scope is beyond
pruning's reach. -/
theorem prune_good (s : Scope) (hn : (stmIds s).Nodup) : goodScope (prune s) := by
  unfold prune
  apply pruneGo_good s _ hn
  intro st hst
  exact Or.inr (List.mem_map.mpr ⟨st, hst, rfl⟩)

/-- C5: dead-phi pruning is idempotent — a second run of
`_remove_useless_phi` on the output of a first run removes no phi and
performs no replacement, leaving every block's statement list unchanged. -/
theorem prune_idempotent (s : Scope) (hn : (stmIds s).Nodup) :
    prune (prune s) = prune s :=
  pruneGo_fixed (prune s) (prune_good s hn) ((phisOf (prune s)).map stmId)

/-- A three-statement scope with two phis and distinct statement ids. -/
def sampleScope : Scope :=
  [[Stm.plain 0 [1], Stm.phi 1 5 [⟨3, 0⟩, ⟨4, 1⟩]], [Stm.phi 2 6 [⟨6, 0⟩, ⟨7, 1⟩]]]

/-- Witness for C5 on a concrete scope. -/
theorem prune_idempotent_witness :
    (stmIds sampleScope).Nodup ∧ prune (prune sampleScope) = prune sampleScope :=
  ⟨by decide, prune_idempotent sampleScope (by decide)⟩

/-- Two arguments with distinct symbols exist. -/
def hasTwoDistinctSyms (args : List Arg) : Prop :=
  ∃ a ∈ args, ∃ b ∈ args, a.sym ≠ b.sym

/-- A scope whose only phi's arguments are all self-references. -/
def selfPhiScope : Scope := [[Stm.phi 1 5 [⟨5, 0⟩, ⟨5, 1⟩]]]

/-- C4 counterexample: a phi whose arguments are all self-references is
not removed — `get_sym_if_having_only_1` returns nothing on an empty
non-self symbol list, so `_remove_useless_phi` keeps the phi, and
`_cleanup_phi` then strips all its arguments but leaves the phi in
place: the scope still contains a phi with zero (hence fewer than two
distinct non-self) argument symbols. -/
theorem phi_args_counterexample :
    prune selfPhiScope = selfPhiScope ∧
    cleanupPhi (prune selfPhiScope) = [[Stm.phi 1 5 []]] ∧
    Stm.phi 1 5 [] ∈ stms (cleanupPhi (prune selfPhiScope)) ∧
    ¬ hasTwoDistinctSyms [] := by
  have hgood : goodScope selfPhiScope := by
    intro st hst
    have hst2 : st = Stm.phi 1 5 [⟨5, 0⟩, ⟨5, 1⟩] := by
      simpa [stms, selfPhiScope] using hst
    subst hst2
    exact ⟨by decide, rfl⟩
  have hp : prune selfPhiScope = selfPhiScope :=
    pruneGo_fixed selfPhiScope hgood _
  have hc : cleanupPhi (prune selfPhiScope) = [[Stm.phi 1 5 []]] := by
    rw [hp]
    rfl
  refine ⟨hp, hc, ?_, ?_⟩
  · rw [hc]
    simp [stms]
  · rintro ⟨a, ha, -⟩
    simp at ha

/-- C4 (amended): after `_remove_useless_phi` and `_cleanup_phi`, every
phi still present in the scope's blocks either has at least two distinct
(non-self, all self-arguments having been stripped) argument symbols, or
— when its arguments were all self-references — survives with an empty
argument list rather than being removed. -/
theorem phi_args_after_cleanup (s : Scope) (hn : (stmIds s).Nodup) :
    ∀ st ∈ stms (cleanupPhi (prune s)), ∀ i d args, st = Stm.phi i d args →
      (args = [] ∨ ((∀ a ∈ args, a.sym ≠ d) ∧ hasTwoDistinctSyms args)) := by
  have hg := prune_good s hn
  intro st hst i d args hphi
  subst hphi
  unfold cleanupPhi at hst
  unfold stms at hst
  rw [← List.map_flatten] at hst
  rcases List.mem_map.mp hst with ⟨st0, hst0, hrepl⟩
  have hgood := hg st0 hst0
  cases st0 with
  | plain j uses => simp at hrepl
  | phi i0 d0 args0 =>
      simp only at hrepl
      have hi : i0 = i ∧ d0 = d ∧ args0.filter (fun a => a.sym ≠ d0) = args := by
        refine ⟨?_, ?_, ?_⟩ <;> cases hrepl <;> rfl
      rcases hi with ⟨rfl, rfl, hargs⟩
      have hgood2 : args0 ≠ [] ∧ collapseSym d0 args0 = none := hgood
      have hcol := hgood2.2
      unfold collapseSym at hcol
      cases hm : (args0.filter (fun a => a.sym ≠ d0)).map Arg.sym with
      | nil =>
          left
          rw [← hargs]
          exact List.map_eq_nil_iff.mp hm
      | cons s0 rest =>
          rw [hm] at hcol
          dsimp only at hcol
          cases hall : rest.all (fun x => x == s0) with
          | true =>
              rw [hall] at hcol
              simp at hcol
          | false =>
              right
              have hself : ∀ a ∈ args, a.sym ≠ d0 := by
                intro a ha
                rw [← hargs] at ha
                have := List.of_mem_filter ha
                simpa using this
              refine ⟨hself, ?_⟩
              have hx : ∃ x ∈ rest, ¬(x == s0) = true := by
                by_contra hcon
                push_neg at hcon
                have hallt : rest.all (fun x => x == s0) = true :=
                  List.all_eq_true.mpr (fun x hxm => by
                    have := hcon x hxm
                    simpa using this)
                rw [hallt] at hall
                cases hall
              rcases hx with ⟨x, hxr, hxne⟩
              have hxs : x ≠ s0 := by simpa using hxne
              have hs0mem : s0 ∈ args.map Arg.sym := by
                rw [← hargs, hm]
                simp
              have hxmem : x ∈ args.map Arg.sym := by
                rw [← hargs, hm]
                exact List.mem_cons_of_mem _ hxr
              rcases List.mem_map.mp hs0mem with ⟨a, hamem, hasym⟩
              rcases List.mem_map.mp hxmem with ⟨b, hbmem, hbsym⟩
              exact ⟨a, hamem, b, hbmem, by
                rw [hasym, hbsym]
                exact fun h => hxs h.symm⟩

/-- Witness for C4 (amended) on a concrete scope. -/
theorem phi_args_after_cleanup_witness :
    (stmIds sampleScope).Nodup ∧
    (∀ st ∈ stms (cleanupPhi (prune sampleScope)), ∀ i d args, st = Stm.phi i d args →
      (args = [] ∨ ((∀ a ∈ args, a.sym ≠ d) ∧ hasTwoDistinctSyms args))) :=
  ⟨by decide, phi_args_after_cleanup sampleScope (by decide)⟩

end Ssa

namespace Rename

/-- A `TEMP` IR node: a python object identity and the symbol it carries
(symbols as names; versioned names never collide with originals because
they carry a `#`). -/
structure Temp where
  id : Nat
  sym : String
  deriving DecidableEq, Repr

/-- An IR statement as `_insert_phi` / `_rename` see it: a `PHI` with a
destination `TEMP` and (symbol, predecessor-block) argument pairs — the
argument `TEMP`s are created directly with their final symbol and never
run through the rename map — or any other statement with its defined and
used `TEMP`s. -/
inductive RStm where
  | phi (v : Temp) (args : List (String × Nat))
  | plain (defs : List Temp) (uses : List Temp)
  deriving DecidableEq, Repr

/-- The scope's blocks: block number to statement list. -/
abbrev Blocks := List (Nat × List RStm)

/-- The versioned name `sym#i` built by `_rename_rec`
(`use.sym.name + '#' + str(i)`). -/
def versionName (s : String) (i : Nat) : String := s ++ "#" ++ toString i

/-- Modelled from the spec: the symbol role predicates `is_condition`,
`is_temp`, `is_param` and `is_function` of symbol.py, which is not under
src/.  The spec calls these role flags on the symbol; the snapshot's
`Symbol.return_prefix` usage in ssa.py's `main` shows the role flags of
this code base are name-prefix conventions, so they are embedded as
prefix tests (the concrete prefix strings are irrelevant to the
theorems). -/
def rolePres : List String := ["@cond", "@t", "@in", "@fn"]

/-- `SSAFormTransformer._is_always_single_assigned` (ssa.py lines
29-30). -/
def isAlwaysSingleAssigned (s : String) : Bool :=
  rolePres.any (fun p => p.data.isPrefixOf s.data)

/-- Helper: versioning preserves the exempt roles — a versioned name
keeps the original's prefix. -/
theorem exempt_versionName (s : String) (i : Nat)
    (h : isAlwaysSingleAssigned s = true) :
    isAlwaysSingleAssigned (versionName s i) = true := by
  unfold isAlwaysSingleAssigned at h ⊢
  rcases List.any_eq_true.mp h with ⟨p, hp, hpre⟩
  apply List.any_eq_true.mpr
  refine ⟨p, hp, ?_⟩
  apply List.isPrefixOf_iff_prefix.mpr
  have h1 : p.data <+: s.data := List.isPrefixOf_iff_prefix.mp hpre
  unfold versionName
  rw [String.data_append, String.data_append]
  exact h1.trans ((s.data.prefix_append _).trans (List.prefix_append _ _))

/-- The renaming walk's mutable state: the blocks (phi arguments grow
during the walk), the per-symbol counters and version stacks, and the
collected `new_syms` pairs (TEMP identity, versioned symbol). -/
structure RState where
  blocks : Blocks
  count : String → Nat
  stack : String → List Nat
  acc : List (Nat × String)

/-- Assoc lookup of a block's statements. -/
def lookupBlk (bl : Blocks) (b : Nat) : Option (List RStm) :=
  (bl.find? (fun p => p.1 == b)).map Prod.snd

/-- Assoc update of a block's statements. -/
def updateBlk (bl : Blocks) (b : Nat) (f : List RStm → List RStm) : Blocks :=
  bl.map (fun p => if p.1 == b then (p.1, f p.2) else p)

/-- `stack[sym][-1]` with the `[0]` initialization of `_rename`. -/
def stackTop (stk : String → List Nat) (s : String) : Nat := (stk s).headD 0

/-- One definition of `d`: `count[d.sym] += 1; stack[d.sym].append(i)` and
the `new_syms.add((d, inherit_sym(...)))` record (ssa.py lines 108-131). -/
def pushDef (st : RState) (d : Temp) : RState :=
  let c := st.count d.sym + 1
  { st with
    count := Function.update st.count d.sym c
    stack := Function.update st.stack d.sym (c :: st.stack d.sym)
    acc := st.acc ++ [(d.id, versionName d.sym c)] }

/-- One statement of `_rename_rec`'s first loop (ssa.py lines 95-131):
non-phi uses are recorded against the current stack top, then every
definition (including a phi's destination) pushes a fresh version. -/
def renameStm (st : RState) (stm : RStm) : RState :=
  match stm with
  | RStm.phi v _ => pushDef st v
  | RStm.plain ds us =>
      let st1 := { st with
        acc := st.acc ++
          us.map (fun u => (u.id, versionName u.sym (stackTop st.stack u.sym))) }
      ds.foldl pushDef st1

/-- The phi-argument extension of `_rename_rec`'s successor loop (ssa.py
lines 133-147): each phi of a successor gains an argument carrying the
predecessor's live version, skipped while the version is 0. -/
def extendSuccPhis (b : Nat) (stk : String → List Nat) : List RStm → List RStm :=
  List.map (fun stm =>
    match stm with
    | RStm.phi v args =>
        if stackTop stk v.sym > 0 then
          RStm.phi v (args ++ [(versionName v.sym (stackTop stk v.sym), b)])
        else RStm.phi v args
    | p => p)

/-- The two in-block passes of `_rename_rec` before recursing into the
dominator-tree children. -/
def renameBlockPre (succs : Nat → List Nat) (b : Nat) (st : RState) : RState :=
  match lookupBlk st.blocks b with
  | none => st
  | some stmsB =>
      let st1 := stmsB.foldl renameStm st
      (succs b).foldl (fun s sb =>
        { s with blocks := updateBlk s.blocks sb (extendSuccPhis b s.stack) }) st1

/-- The definition symbols of a statement, in order. -/
def stmDefSyms : RStm → List String
  | RStm.phi v _ => [v.sym]
  | RStm.plain ds _ => ds.map Temp.sym

/-- The stack pops of `_rename_rec`'s closing loop (ssa.py lines
151-153). -/
def renameBlockPost (b : Nat) (st : RState) : RState :=
  match lookupBlk st.blocks b with
  | none => st
  | some stmsB =>
      let pops := stmsB.foldl (fun l stm => l ++ stmDefSyms stm) []
      let stk2 := pops.foldl (fun stk sy => Function.update stk sy (stk sy).tail) st.stack
      { st with stack := stk2 }

/-- The dominator tree handed to `_rename_rec` (built by the missing
dominator.py; the walk is over `tree.get_children_of`). -/
inductive DTree where
  | node (blk : Nat) (children : List DTree)

/-- The depth-first dominator-tree walk of `_rename_rec`, written over a
forest: visit a block, recurse into its children, pop its definitions,
then continue with the siblings. -/
def renameForest (succs : Nat → List Nat) : List DTree → RState → RState
  | [], st => st
  | DTree.node b cs :: siblings, st =>
      renameForest succs siblings
        (renameBlockPost b (renameForest succs cs (renameBlockPre succs b st)))

/-- `var.sym = sym` on the TEMP with the pair's identity. -/
def setTemp (tid : Nat) (n : String) (t : Temp) : Temp :=
  if t.id == tid then ⟨t.id, n⟩ else t

/-- Apply one rename to a statement's TEMPs (phi argument pairs carry
plain symbols and are not TEMP objects of the rename map). -/
def setTempStm (tid : Nat) (n : String) : RStm → RStm
  | RStm.phi v args => RStm.phi (setTemp tid n v) args
  | RStm.plain ds us => RStm.plain (ds.map (setTemp tid n)) (us.map (setTemp tid n))

/-- Apply one rename to every statement. -/
def setTempSym (tid : Nat) (n : String) (bl : Blocks) : Blocks :=
  bl.map (fun p => (p.1, p.2.map (setTempStm tid n)))

/-- One `new_syms` pair applied by `_rename`'s closing loop (ssa.py lines
82-86): pairs whose versioned symbol is exempt are skipped. -/
def applyPair (bl : Blocks) (p : Nat × String) : Blocks :=
  if isAlwaysSingleAssigned p.2 then bl else setTempSym p.1 p.2 bl

/-- The closing loop of `_rename`. -/
def applyRenames (acc : List (Nat × String)) (bl : Blocks) : Blocks :=
  acc.foldl applyPair bl

/-- `SSAFormTransformer._rename` (ssa.py lines 66-86): walk the dominator
tree collecting `new_syms`, then apply every non-exempt pair. -/
def renameScope (succs : Nat → List Nat) (tree : DTree) (bl : Blocks) : Blocks :=
  let st := renameForest succs [tree] ⟨bl, fun _ => 0, fun _ => [], []⟩
  applyRenames st.acc st.blocks

/-- The (identity, symbol) pairs of a statement's TEMPs. -/
def stmEntries : RStm → List (Nat × String)
  | RStm.phi v _ => [(v.id, v.sym)]
  | RStm.plain ds us => (ds ++ us).map (fun t => (t.id, t.sym))

/-- The entries of a statement list. -/
def stmsEntries (stms : List RStm) : List (Nat × String) :=
  (stms.map stmEntries).flatten

/-- Every TEMP occurrence of the scope, as (identity, symbol) pairs. -/
def tempEntries (bl : Blocks) : List (Nat × String) :=
  (bl.map (fun p => stmsEntries p.2)).flatten

/-- The rewrite a single rename pair performs on an entry. -/
def entryRename (tid : Nat) (n : String) (q : Nat × String) : Nat × String :=
  if q.1 = tid then (q.1, n) else q

/-- Helper: one rename's effect on a statement's entries. -/
theorem stmEntries_setTempStm (tid : Nat) (n : String) (stm : RStm) :
    stmEntries (setTempStm tid n stm) = (stmEntries stm).map (entryRename tid n) := by
  cases stm with
  | phi v args =>
      unfold stmEntries setTempStm setTemp entryRename
      dsimp only
      by_cases h : v.id = tid
      · simp [h]
      · simp [h]
  | plain ds us =>
      unfold stmEntries setTempStm
      dsimp only
      rw [← List.map_append, List.map_map, List.map_map]
      apply List.map_congr_left
      intro t _
      unfold setTemp entryRename
      by_cases h : t.id = tid
      · simp [h]
      · simp [h]

/-- Helper: one rename's effect on a statement list's entries. -/
theorem stmsEntries_setTempStm (tid : Nat) (n : String) (stms : List RStm) :
    stmsEntries (stms.map (setTempStm tid n)) =
      (stmsEntries stms).map (entryRename tid n) := by
  unfold stmsEntries
  rw [List.map_map]
  have hcomp : (stmEntries ∘ setTempStm tid n) =
      (List.map (entryRename tid n) ∘ stmEntries) := by
    funext stm
    exact stmEntries_setTempStm tid n stm
  rw [hcomp, ← List.map_map, ← List.map_flatten]

/-- Helper: one rename's effect on the scope's entries. -/
theorem tempEntries_setTempSym (tid : Nat) (n : String) (bl : Blocks) :
    tempEntries (setTempSym tid n bl) = (tempEntries bl).map (entryRename tid n) := by
  unfold tempEntries setTempSym
  rw [List.map_map]
  conv_rhs => rw [List.map_flatten]
  rw [List.map_map]
  congr 1
  apply List.map_congr_left
  intro p _
  simp only [Function.comp]
  exact stmsEntries_setTempStm tid n p.2

/-- Helper: an exempt occurrence survives the closing loop of `_rename`
provided every pair aimed at its identity carries an exempt symbol. -/
theorem applyRenames_preserves (acc : List (Nat × String)) (bl : Blocks)
    (tid : Nat) (s : String) (hmem : (tid, s) ∈ tempEntries bl)
    (hexempt : ∀ p ∈ acc, p.1 = tid → isAlwaysSingleAssigned p.2 = true) :
    (tid, s) ∈ tempEntries (applyRenames acc bl) := by
  induction acc generalizing bl with
  | nil => exact hmem
  | cons p rest ih =>
      unfold applyRenames
      rw [List.foldl_cons]
      apply ih
      · unfold applyPair
        cases hexp : isAlwaysSingleAssigned p.2 with
        | true => simpa [hexp] using hmem
        | false =>
            simp only [hexp, Bool.false_eq_true, if_false]
            rw [tempEntries_setTempSym]
            have hne : p.1 ≠ tid := by
              intro hcon
              have := hexempt p (by simp) hcon
              rw [this] at hexp
              cases hexp
            refine List.mem_map.mpr ⟨(tid, s), hmem, ?_⟩
            unfold entryRename
            rw [if_neg (fun hc => hne hc.symm)]
      · intro q hq hq1
        exact hexempt q (List.mem_cons_of_mem _ hq) hq1

/-- Helper: pushing definitions leaves the blocks untouched. -/
theorem foldl_pushDef_blocks (ds : List Temp) (st : RState) :
    (ds.foldl pushDef st).blocks = st.blocks := by
  induction ds generalizing st with
  | nil => rfl
  | cons d ds ih =>
      rw [List.foldl_cons, ih]
      rfl

/-- Helper: `renameStm` leaves the blocks untouched. -/
theorem renameStm_blocks (st : RState) (stm : RStm) :
    (renameStm st stm).blocks = st.blocks := by
  cases stm with
  | phi v args => rfl
  | plain ds us =>
      unfold renameStm
      rw [foldl_pushDef_blocks]

/-- Helper: a statement fold leaves the blocks untouched. -/
theorem foldl_renameStm_blocks (stms : List RStm) (st : RState) :
    (stms.foldl renameStm st).blocks = st.blocks := by
  induction stms generalizing st with
  | nil => rfl
  | cons stm stms ih =>
      rw [List.foldl_cons, ih, renameStm_blocks]

/-- Helper: the successor-phi extension does not change any entry. -/
theorem stmsEntries_extendSuccPhis (b : Nat) (stk : String → List Nat)
    (stms : List RStm) : stmsEntries (extendSuccPhis b stk stms) = stmsEntries stms := by
  unfold stmsEntries extendSuccPhis
  rw [List.map_map]
  congr 1
  apply List.map_congr_left
  intro stm _
  cases stm with
  | phi v args =>
      by_cases h : stackTop stk v.sym > 0
      · simp [h, stmEntries, Function.comp]
      · simp [h, stmEntries, Function.comp]
  | plain ds us => rfl

/-- Helper: a per-block rewrite that keeps entries keeps the scope's
entries. -/
theorem tempEntries_updateBlk (bl : Blocks) (b : Nat) (f : List RStm → List RStm)
    (hf : ∀ stms, stmsEntries (f stms) = stmsEntries stms) :
    tempEntries (updateBlk bl b f) = tempEntries bl := by
  unfold tempEntries updateBlk
  rw [List.map_map]
  congr 1
  apply List.map_congr_left
  intro p _
  by_cases h : (p.1 == b) = true
  · simp only [Function.comp, h, if_pos]
    exact hf p.2
  · simp only [Function.comp, h, if_neg]
    rfl

/-- Helper: the successor fold of `renameBlockPre` keeps the scope's
entries. -/
theorem succFold_entries (b : Nat) (sbs : List Nat) (st1 : RState) :
    tempEntries ((sbs.foldl (fun s sb =>
        { s with blocks := updateBlk s.blocks sb (extendSuccPhis b s.stack) })
      st1).blocks) = tempEntries st1.blocks := by
  induction sbs generalizing st1 with
  | nil => rfl
  | cons sb sbs ih =>
      rw [List.foldl_cons, ih]
      exact tempEntries_updateBlk st1.blocks sb _
        (stmsEntries_extendSuccPhis b st1.stack)

/-- Helper: the pre-recursion work of a block keeps the scope's entries. -/
theorem renameBlockPre_entries (succs : Nat → List Nat) (b : Nat) (st : RState) :
    tempEntries (renameBlockPre succs b st).blocks = tempEntries st.blocks := by
  unfold renameBlockPre
  cases hl : lookupBlk st.blocks b with
  | none => rfl
  | some stmsB =>
      dsimp only
      rw [succFold_entries, foldl_renameStm_blocks]

/-- Helper: the post-recursion pops leave the blocks untouched. -/
theorem renameBlockPost_blocks (b : Nat) (st : RState) :
    (renameBlockPost b st).blocks = st.blocks := by
  unfold renameBlockPost
  cases lookupBlk st.blocks b with
  | none => rfl
  | some stmsB => rfl

/-- Helper: the whole walk keeps the scope's entries. -/
theorem renameForest_entries (succs : Nat → List Nat) (f : List DTree) (st : RState) :
    tempEntries (renameForest succs f st).blocks = tempEntries st.blocks := by
  induction f, st using renameForest.induct succs with
  | case1 st => rw [renameForest]
  | case2 b cs siblings st ih1 ih2 =>
      rw [renameForest]
      rw [ih2, renameBlockPost_blocks, ih1, renameBlockPre_entries]

/-- Provenance of the collected `new_syms` pairs: every pair targets the
identity of some TEMP occurrence of the scope and carries a version of
that occurrence's symbol. -/
def accProv (bl : Blocks) (acc : List (Nat × String)) : Prop :=
  ∀ p ∈ acc, ∃ q, q ∈ tempEntries bl ∧ ∃ i, p.1 = q.1 ∧ p.2 = versionName q.2 i

/-- Unfolding equation for the pair `pushDef` records. -/
theorem pushDef_acc_eq (st : RState) (d : Temp) :
    (pushDef st d).acc = st.acc ++ [(d.id, versionName d.sym (st.count d.sym + 1))] := rfl

/-- `pushDef` keeps provenance when the pushed TEMP occurs in the scope. -/
theorem pushDef_acc (bl : Blocks) (st : RState) (d : Temp)
    (hd : (d.id, d.sym) ∈ tempEntries bl) (h : accProv bl st.acc) :
    accProv bl (pushDef st d).acc := by
  intro p hp
  rw [pushDef_acc_eq] at hp
  rcases List.mem_append.mp hp with h1 | h1
  · exact h p h1
  · rw [List.mem_singleton] at h1
    subst h1
    exact ⟨(d.id, d.sym), hd, st.count d.sym + 1, rfl, rfl⟩

/-- A definition fold keeps provenance. -/
theorem foldl_pushDef_acc (bl : Blocks) (ds : List Temp) (st : RState)
    (hds : ∀ d ∈ ds, (d.id, d.sym) ∈ tempEntries bl) (h : accProv bl st.acc) :
    accProv bl ((ds.foldl pushDef st).acc) := by
  induction ds generalizing st with
  | nil => exact h
  | cons d ds ih =>
      rw [List.foldl_cons]
      exact ih (pushDef st d) (fun d' hd' => hds d' (List.mem_cons_of_mem _ hd'))
        (pushDef_acc bl st d (hds d (List.mem_cons_self _ _)) h)

/-- `renameStm` keeps provenance when its statement is in the scope. -/
theorem renameStm_acc (bl : Blocks) (st : RState) (stm : RStm)
    (hstm : ∀ q ∈ stmEntries stm, q ∈ tempEntries bl) (h : accProv bl st.acc) :
    accProv bl (renameStm st stm).acc := by
  cases stm with
  | phi v args =>
      exact pushDef_acc bl st v
        (hstm (v.id, v.sym)
          (show (v.id, v.sym) ∈ [(v.id, v.sym)] from List.mem_singleton.mpr rfl)) h
  | plain ds us =>
      refine foldl_pushDef_acc bl ds _ ?_ ?_
      · intro d hd
        exact hstm (d.id, d.sym)
          (show (d.id, d.sym) ∈ (ds ++ us).map (fun t => (t.id, t.sym)) from
            List.mem_map_of_mem _ (List.mem_append_left _ hd))
      · intro p hp
        rcases List.mem_append.mp hp with h1 | h1
        · exact h p h1
        · rcases List.mem_map.mp h1 with ⟨u, hu, rfl⟩
          refine ⟨(u.id, u.sym), ?_, stackTop st.stack u.sym, rfl, rfl⟩
          exact hstm (u.id, u.sym)
            (show (u.id, u.sym) ∈ (ds ++ us).map (fun t => (t.id, t.sym)) from
              List.mem_map_of_mem _ (List.mem_append_right _ hu))

/-- The entries of a looked-up block are entries of the scope. -/
theorem lookupBlk_sub (bl : Blocks) (b : Nat) (stms : List RStm)
    (h : lookupBlk bl b = some stms) : ∀ q ∈ stmsEntries stms, q ∈ tempEntries bl := by
  intro q hq
  unfold lookupBlk at h
  rcases Option.map_eq_some'.mp h with ⟨p, hfind, hsnd⟩
  have hpmem : p ∈ bl := List.mem_of_find?_eq_some hfind
  rw [← hsnd] at hq
  exact List.mem_flatten.mpr ⟨stmsEntries p.2, List.mem_map_of_mem _ hpmem, hq⟩

/-- A statement fold keeps provenance. -/
theorem foldl_renameStm_acc (bl : Blocks) (stms : List RStm) (st : RState)
    (hsub : ∀ q ∈ stmsEntries stms, q ∈ tempEntries bl) (h : accProv bl st.acc) :
    accProv bl ((stms.foldl renameStm st).acc) := by
  induction stms generalizing st with
  | nil => exact h
  | cons stm stms ih =>
      rw [List.foldl_cons]
      have hcons : stmsEntries (stm :: stms) = stmEntries stm ++ stmsEntries stms := by
        unfold stmsEntries
        rw [List.map_cons, List.flatten_cons]
      apply ih
      · intro q hq
        exact hsub q (by rw [hcons]; exact List.mem_append_right _ hq)
      · exact renameStm_acc bl st stm
          (fun q hq => hsub q (by rw [hcons]; exact List.mem_append_left _ hq)) h

/-- The successor fold leaves the collected pairs untouched. -/
theorem succFold_acc (b : Nat) (sbs : List Nat) (st1 : RState) :
    ((sbs.foldl (fun s sb =>
        { s with blocks := updateBlk s.blocks sb (extendSuccPhis b s.stack) })
      st1).acc) = st1.acc := by
  induction sbs generalizing st1 with
  | nil => rfl
  | cons sb sbs ih =>
      rw [List.foldl_cons, ih]

/-- The pre-recursion work of a block keeps provenance. -/
theorem renameBlockPre_acc (bl : Blocks) (succs : Nat → List Nat) (b : Nat) (st : RState)
    (hent : tempEntries st.blocks = tempEntries bl) (h : accProv bl st.acc) :
    accProv bl (renameBlockPre succs b st).acc := by
  unfold renameBlockPre
  cases hl : lookupBlk st.blocks b with
  | none => exact h
  | some stmsB =>
      dsimp only
      rw [succFold_acc]
      refine foldl_renameStm_acc bl stmsB st ?_ h
      intro q hq
      rw [← hent]
      exact lookupBlk_sub st.blocks b stmsB hl q hq

/-- The post-recursion pops leave the collected pairs untouched. -/
theorem renameBlockPost_acc (b : Nat) (st : RState) :
    (renameBlockPost b st).acc = st.acc := by
  unfold renameBlockPost
  cases lookupBlk st.blocks b with
  | none => rfl
  | some stmsB => rfl

/-- The whole dominator-tree walk keeps provenance. -/
theorem renameForest_acc (bl : Blocks) (succs : Nat → List Nat) (f : List DTree)
    (st : RState) :
    tempEntries st.blocks = tempEntries bl → accProv bl st.acc →
    accProv bl (renameForest succs f st).acc := by
  induction f, st using renameForest.induct succs with
  | case1 st =>
      intro _ h
      rw [renameForest]
      exact h
  | case2 b cs siblings st ih1 ih2 =>
      intro hent h
      rw [renameForest]
      apply ih2
      · rw [renameBlockPost_blocks, renameForest_entries, renameBlockPre_entries, hent]
      · rw [renameBlockPost_acc]
        apply ih1
        · rw [renameBlockPre_entries, hent]
        · exact renameBlockPre_acc bl succs b st hent h

/-- Part (b) of the exemption guarantee: the renaming pass keeps every
occurrence of an exempt symbol, provided TEMP identities are functional
(one symbol per python object identity, as object identity guarantees). -/
theorem renameScope_exempt (succs : Nat → List Nat) (tree : DTree) (bl : Blocks)
    (tid : Nat) (s : String)
    (hfun : ∀ q ∈ tempEntries bl, ∀ q2 ∈ tempEntries bl, q.1 = q2.1 → q.2 = q2.2)
    (hmem : (tid, s) ∈ tempEntries bl)
    (hex : isAlwaysSingleAssigned s = true) :
    (tid, s) ∈ tempEntries (renameScope succs tree bl) := by
  show (tid, s) ∈ tempEntries
    (applyRenames (renameForest succs [tree] ⟨bl, fun _ => 0, fun _ => [], []⟩).acc
      (renameForest succs [tree] ⟨bl, fun _ => 0, fun _ => [], []⟩).blocks)
  apply applyRenames_preserves
  · rw [renameForest_entries]
    exact hmem
  · intro p hp hp1
    have hprov := renameForest_acc bl succs [tree] ⟨bl, fun _ => 0, fun _ => [], []⟩
      rfl (by intro p hp; cases hp) p hp
    rcases hprov with ⟨q, hq, i, hpq1, hpq2⟩
    have hqs : q.2 = s := hfun q hq (tid, s) hmem (by rw [← hpq1]; exact hp1)
    rw [hpq2, hqs]
    exact exempt_versionName s i hex

/-- The mutable state of `_insert_phi` for one symbol: the blocks, the
`phis[df]` membership record for the current symbol (the dominance-frontier
blocks already given a phi), and a fresh-identity counter standing for
python's allocation of new TEMP objects. -/
structure InsState where
  blocks : Blocks
  inserted : List Nat
  nextId : Nat

/-- `df.stms.insert(0, PHI(TEMP(sym, 'Store')))` plus the `phis[df]`
record (ssa.py lines 50-56). -/
def insertPhiAt (sym : String) (d : Nat) (st : InsState) : InsState :=
  { blocks := updateBlk st.blocks d (fun stms => RStm.phi ⟨st.nextId, sym⟩ [] :: stms)
    inserted := d :: st.inserted
    nextId := st.nextId + 1 }

/-- The dominance-frontier loop for one popped defining block (ssa.py
lines 46-62): each frontier block not yet holding a phi for the symbol
receives one, and joins the worklist unless the symbol was already defined
there (`usedef.get_blk_defs_sym` is checked before `add_var_def`, so for a
phi-less frontier block it is the original defining-block set `defs0`). -/
def processDfs (sym : String) (defs0 : List Nat) (dfs : List Nat)
    (st : InsState) (work : List Nat) : InsState × List Nat :=
  dfs.foldl (fun p d =>
    if d ∈ p.1.inserted then p
    else (insertPhiAt sym d p.1, if d ∈ defs0 then p.2 else p.2 ++ [d]))
    (st, work)

/-- `self.dominance_frontier[def_block]`, with a block outside the map
contributing the empty frontier (the `continue` of ssa.py line 45). -/
def lookupDf (dfMap : List (Nat × List Nat)) (b : Nat) : List Nat :=
  ((dfMap.find? (fun p => p.1 == b)).map Prod.snd).getD []

/-- Every block that can ever appear as a dominance frontier. -/
def dfUniv (dfMap : List (Nat × List Nat)) : List Nat :=
  (dfMap.map Prod.snd).flatten

/-- Termination measure: the frontier blocks not yet given a phi. -/
def philess (dfMap : List (Nat × List Nat)) (ins : List Nat) : Nat :=
  (((dfUniv dfMap).dedup).filter (fun d => decide (d ∉ ins))).length

/-- Recording one more frontier block strictly shrinks the measure. -/
theorem philess_insert (dfMap : List (Nat × List Nat)) (ins : List Nat) (d : Nat)
    (hd : d ∈ dfUniv dfMap) (hni : d ∉ ins) :
    philess dfMap (d :: ins) < philess dfMap ins := by
  unfold philess
  have heq : ((dfUniv dfMap).dedup).filter (fun x => decide (x ∉ d :: ins)) =
      (((dfUniv dfMap).dedup).filter (fun x => decide (x ≠ d))).filter
        (fun x => decide (x ∉ ins)) := by
    rw [List.filter_filter]
    apply List.filter_congr
    intro x _
    simp [List.mem_cons, not_or, Bool.and_comm]
  rw [heq]
  exact Ssa.length_filter_filter_lt (fun x => decide (x ∉ ins))
    (fun x => decide (x ≠ d)) ((dfUniv dfMap).dedup) d
    (List.mem_dedup.mpr hd) (by simp [hni]) (by simp)

/-- A looked-up frontier list lies inside the frontier universe. -/
theorem lookupDf_sub (dfMap : List (Nat × List Nat)) (b : Nat) :
    ∀ d ∈ lookupDf dfMap b, d ∈ dfUniv dfMap := by
  intro d hd
  unfold lookupDf at hd
  cases hfind : dfMap.find? (fun p => p.1 == b) with
  | none =>
      rw [hfind] at hd
      cases hd
  | some p =>
      rw [hfind] at hd
      have hpmem : p ∈ dfMap := List.mem_of_find?_eq_some hfind
      exact List.mem_flatten.mpr ⟨p.2, List.mem_map_of_mem _ hpmem, hd⟩

/-- The frontier fold either does nothing or strictly shrinks the
measure. -/
theorem insFold_measure (dfMap : List (Nat × List Nat)) (sym : String)
    (defs0 : List Nat) (dfs : List Nat) :
    ∀ p0 : InsState × List Nat, (∀ d ∈ dfs, d ∈ dfUniv dfMap) →
      dfs.foldl (fun p d =>
        if d ∈ p.1.inserted then p
        else (insertPhiAt sym d p.1, if d ∈ defs0 then p.2 else p.2 ++ [d])) p0 = p0 ∨
      philess dfMap ((dfs.foldl (fun p d =>
        if d ∈ p.1.inserted then p
        else (insertPhiAt sym d p.1, if d ∈ defs0 then p.2 else p.2 ++ [d]))
          p0).1.inserted) < philess dfMap p0.1.inserted := by
  induction dfs with
  | nil =>
      intro p0 _
      left
      rfl
  | cons d dfs ih =>
      intro p0 hdfs
      simp only [List.foldl_cons]
      by_cases hd : d ∈ p0.1.inserted
      · rw [if_pos hd]
        exact ih p0 (fun d' h' => hdfs d' (List.mem_cons_of_mem _ h'))
      · rw [if_neg hd]
        have hlt : philess dfMap (insertPhiAt sym d p0.1).inserted <
            philess dfMap p0.1.inserted :=
          philess_insert dfMap p0.1.inserted d (hdfs d (List.mem_cons_self _ _)) hd
        rcases ih (insertPhiAt sym d p0.1, if d ∈ defs0 then p0.2 else p0.2 ++ [d])
            (fun d' h' => hdfs d' (List.mem_cons_of_mem _ h')) with heq | hlt2
        · right
          rw [heq]
          exact hlt
        · right
          exact lt_trans hlt2 hlt

/-- `processDfs` either does nothing or strictly shrinks the measure. -/
theorem processDfs_measure (dfMap : List (Nat × List Nat)) (sym : String)
    (defs0 : List Nat) (dfs : List Nat) (st : InsState) (work : List Nat)
    (hdfs : ∀ d ∈ dfs, d ∈ dfUniv dfMap) :
    processDfs sym defs0 dfs st work = (st, work) ∨
      philess dfMap (processDfs sym defs0 dfs st work).1.inserted <
        philess dfMap st.inserted := by
  unfold processDfs
  exact insFold_measure dfMap sym defs0 dfs (st, work) hdfs

/-- The lexicographic descent of one worklist step. -/
theorem insertPhiSym_dec (dfMap : List (Nat × List Nat)) (sym : String)
    (defs0 : List Nat) (st : InsState) (b : Nat) (work : List Nat) :
    Prod.Lex (· < ·) (· < ·)
      (philess dfMap (processDfs sym defs0 (lookupDf dfMap b) st work).1.inserted,
        (processDfs sym defs0 (lookupDf dfMap b) st work).2.length)
      (philess dfMap st.inserted, (b :: work).length) := by
  rcases processDfs_measure dfMap sym defs0 (lookupDf dfMap b) st work
      (lookupDf_sub dfMap b) with heq | hlt
  · rw [heq]
    apply Prod.Lex.right
    simp
  · apply Prod.Lex.left
    exact hlt

/-- The worklist of `_insert_phi` for one non-exempt symbol (ssa.py lines
41-62): pop a defining block, process its dominance frontier, continue
until the worklist (a python set, modelled as a queue) empties. -/
def insertPhiSym (dfMap : List (Nat × List Nat)) (sym : String) (defs0 : List Nat)
    (st : InsState) (wl : List Nat) : InsState :=
  match wl with
  | [] => st
  | b :: work =>
      insertPhiSym dfMap sym defs0 (processDfs sym defs0 (lookupDf dfMap b) st work).1
        (processDfs sym defs0 (lookupDf dfMap b) st work).2
termination_by (philess dfMap st.inserted, wl.length)
decreasing_by
  exact insertPhiSym_dec dfMap sym defs0 st _ _

/-- `SSAFormTransformer._insert_phi` (ssa.py lines 33-62): the symbol loop
over `usedef._sym_defs_blk`, skipping every always-single-assigned symbol;
each surviving symbol runs its worklist from its defining blocks with a
fresh `phis[df]` record. -/
def insertPhiAll (dfMap : List (Nat × List Nat))
    (defsBlk : List (String × List Nat)) (bl : Blocks) : Blocks :=
  (defsBlk.foldl (fun st p =>
    if isAlwaysSingleAssigned p.1 then st
    else insertPhiSym dfMap p.1 p.2 ⟨st.blocks, [], st.nextId⟩ p.2)
    ⟨bl, [], 0⟩).blocks

/-- The destination symbols of the scope's phi statements. -/
def phiSyms (bl : Blocks) : List String :=
  (bl.map (fun p => p.2.filterMap (fun stm =>
    match stm with
    | RStm.phi v _ => some v.sym
    | RStm.plain _ _ => none))).flatten

/-- Unfolding equation: the empty worklist. -/
theorem insertPhiSym_nil (dfMap : List (Nat × List Nat)) (sym : String)
    (defs0 : List Nat) (st : InsState) : insertPhiSym dfMap sym defs0 st [] = st := by
  rw [insertPhiSym]

/-- Unfolding equation: one worklist pop. -/
theorem insertPhiSym_cons (dfMap : List (Nat × List Nat)) (sym : String)
    (defs0 : List Nat) (st : InsState) (b : Nat) (work : List Nat) :
    insertPhiSym dfMap sym defs0 st (b :: work) =
      insertPhiSym dfMap sym defs0 (processDfs sym defs0 (lookupDf dfMap b) st work).1
        (processDfs sym defs0 (lookupDf dfMap b) st work).2 := by
  rw [insertPhiSym]

/-- One insertion only adds a phi carrying the processed symbol. -/
theorem phiSyms_insertPhiAt (sym : String) (d : Nat) (st : InsState) (s : String)
    (hs : s ∈ phiSyms (insertPhiAt sym d st).blocks) : s = sym ∨ s ∈ phiSyms st.blocks := by
  have hb : (insertPhiAt sym d st).blocks =
      updateBlk st.blocks d (fun stms => RStm.phi ⟨st.nextId, sym⟩ [] :: stms) := rfl
  rw [hb] at hs
  unfold phiSyms updateBlk at hs
  rw [List.map_map] at hs
  rcases List.mem_flatten.mp hs with ⟨l, hl, hsl⟩
  rcases List.mem_map.mp hl with ⟨p, hp, hlp⟩
  subst hlp
  simp only [Function.comp] at hsl
  by_cases hd : (p.1 == d) = true
  · rw [if_pos hd] at hsl
    simp only [List.filterMap_cons] at hsl
    rcases List.mem_cons.mp hsl with h | h
    · left
      exact h
    · right
      unfold phiSyms
      exact List.mem_flatten.mpr ⟨_, List.mem_map_of_mem _ hp, h⟩
  · rw [if_neg hd] at hsl
    right
    unfold phiSyms
    exact List.mem_flatten.mpr ⟨_, List.mem_map_of_mem _ hp, hsl⟩

/-- The frontier fold only adds phis carrying the processed symbol. -/
theorem phiSyms_insFold (sym : String) (defs0 dfs : List Nat) :
    ∀ (p0 : InsState × List Nat) (s : String),
      s ∈ phiSyms ((dfs.foldl (fun p d =>
        if d ∈ p.1.inserted then p
        else (insertPhiAt sym d p.1, if d ∈ defs0 then p.2 else p.2 ++ [d]))
          p0).1.blocks) →
      s = sym ∨ s ∈ phiSyms p0.1.blocks := by
  induction dfs with
  | nil =>
      intro p0 s hs
      right
      exact hs
  | cons d dfs ih =>
      intro p0 s hs
      simp only [List.foldl_cons] at hs
      by_cases hd : d ∈ p0.1.inserted
      · rw [if_pos hd] at hs
        exact ih p0 s hs
      · rw [if_neg hd] at hs
        rcases ih (insertPhiAt sym d p0.1, if d ∈ defs0 then p0.2 else p0.2 ++ [d]) s hs
          with h | h
        · left
          exact h
        · exact phiSyms_insertPhiAt sym d p0.1 s h

/-- One symbol's worklist only adds phis carrying that symbol. -/
theorem phiSyms_insertPhiSym (dfMap : List (Nat × List Nat)) (sym : String)
    (defs0 : List Nat) (st : InsState) (wl : List Nat) :
    ∀ s, s ∈ phiSyms (insertPhiSym dfMap sym defs0 st wl).blocks →
      s = sym ∨ s ∈ phiSyms st.blocks := by
  induction st, wl using insertPhiSym.induct dfMap sym defs0 with
  | case1 st =>
      intro s hs
      rw [insertPhiSym_nil] at hs
      right
      exact hs
  | case2 st b work ih =>
      intro s hs
      rw [insertPhiSym_cons] at hs
      rcases ih s hs with h | h
      · left
        exact h
      · exact phiSyms_insFold sym defs0 (lookupDf dfMap b) (st, work) s h

/-- The symbol loop never adds a phi carrying an exempt symbol. -/
theorem phiAllFold_exempt (dfMap : List (Nat × List Nat))
    (defsBlk : List (String × List Nat)) (s : String)
    (hex : isAlwaysSingleAssigned s = true) :
    ∀ st0 : InsState,
      s ∈ phiSyms ((defsBlk.foldl (fun st p =>
        if isAlwaysSingleAssigned p.1 then st
        else insertPhiSym dfMap p.1 p.2 ⟨st.blocks, [], st.nextId⟩ p.2) st0).blocks) →
      s ∈ phiSyms st0.blocks := by
  induction defsBlk with
  | nil =>
      intro st0 hs
      exact hs
  | cons p rest ih =>
      intro st0 hs
      simp only [List.foldl_cons] at hs
      by_cases hq : isAlwaysSingleAssigned p.1 = true
      · rw [if_pos hq] at hs
        exact ih st0 hs
      · rw [if_neg hq] at hs
        have h2 := ih _ hs
        rcases phiSyms_insertPhiSym dfMap p.1 p.2 ⟨st0.blocks, [], st0.nextId⟩ p.2 s h2
          with h3 | h3
        · rw [h3] at hex
          exact absurd hex hq
        · exact h3

/-- Part (a) of the exemption guarantee: `_insert_phi` adds no phi for an
exempt symbol. -/
theorem insertPhiAll_exempt (dfMap : List (Nat × List Nat))
    (defsBlk : List (String × List Nat)) (bl : Blocks) (s : String)
    (hex : isAlwaysSingleAssigned s = true)
    (hs : s ∈ phiSyms (insertPhiAll dfMap defsBlk bl)) : s ∈ phiSyms bl := by
  unfold insertPhiAll at hs
  exact phiAllFold_exempt dfMap defsBlk s hex ⟨bl, [], 0⟩ hs

/-- **C6.**  For every symbol flagged as condition, temporary, parameter or
function-valued (`_is_always_single_assigned`), SSA construction never
inserts a phi for it — a phi headed by an exempt symbol appears after
`_insert_phi` only if the scope already held one — and `_rename` never
renames its definitions or uses: every (TEMP identity, symbol) occurrence
of an exempt symbol is still present, with the original unversioned
symbol, after the dominator-tree walk and the closing substitution loop,
provided distinct occurrences of one TEMP identity carry one symbol (as
python object identity guarantees). -/
theorem ssa_exempt_preserved (dfMap : List (Nat × List Nat))
    (defsBlk : List (String × List Nat)) (bl0 : Blocks)
    (succs : Nat → List Nat) (tree : DTree) (blR : Blocks)
    (s : String) (tid : Nat)
    (hex : isAlwaysSingleAssigned s = true)
    (hnophi : s ∉ phiSyms bl0)
    (hfun : ∀ q ∈ tempEntries blR, ∀ q2 ∈ tempEntries blR, q.1 = q2.1 → q.2 = q2.2)
    (hmem : (tid, s) ∈ tempEntries blR) :
    s ∉ phiSyms (insertPhiAll dfMap defsBlk bl0) ∧
      (tid, s) ∈ tempEntries (renameScope succs tree blR) := by
  constructor
  · intro hs
    exact hnophi (insertPhiAll_exempt dfMap defsBlk bl0 s hex hs)
  · exact renameScope_exempt succs tree blR tid s hfun hmem hex

/-- Witness for C6 at a concrete scope: one block defining the temporary
`@t0` from `x`, phi insertion driven by `x`'s defining blocks. -/
theorem ssa_exempt_preserved_witness :
    (isAlwaysSingleAssigned "@t0" = true
      ∧ "@t0" ∉ phiSyms [(0, ([] : List RStm))]
      ∧ (∀ q ∈ tempEntries [(0, [RStm.plain [⟨1, "@t0"⟩] [⟨2, "x"⟩]])],
          ∀ q2 ∈ tempEntries [(0, [RStm.plain [⟨1, "@t0"⟩] [⟨2, "x"⟩]])],
            q.1 = q2.1 → q.2 = q2.2)
      ∧ (1, "@t0") ∈ tempEntries [(0, [RStm.plain [⟨1, "@t0"⟩] [⟨2, "x"⟩]])])
    ∧ ("@t0" ∉ phiSyms (insertPhiAll [(0, [0])] [("x", [0])] [(0, [])])
      ∧ (1, "@t0") ∈ tempEntries (renameScope (fun _ => []) (DTree.node 0 [])
          [(0, [RStm.plain [⟨1, "@t0"⟩] [⟨2, "x"⟩]])])) :=
  ⟨⟨by decide, by decide, by decide, by decide⟩,
   ssa_exempt_preserved [(0, [0])] [("x", [0])] [(0, [])] (fun _ => [])
     (DTree.node 0 []) [(0, [RStm.plain [⟨1, "@t0"⟩] [⟨2, "x"⟩]])] "@t0" 1
     (by decide) (by decide) (by decide) (by decide)⟩

end Rename

end Poly

